import Mathlib

/-!
Verification of the metadata-extraction and deterministic-grouping core of the
anime-scraper repository, as a shallow embedding in Lean.

Strings are processed as lists of characters (`String.data`).  The regular
expressions compiled in `anime_scraper/metadata.py` are embedded as explicit
matching functions, one per pattern, with Python `re` semantics spelled out:
a search scans start positions left to right and at each position tries the
pattern's alternatives in order; greedy pieces such as `\d+` or `\s*` take the
maximal run (for these patterns backtracking into a shorter run can never
succeed, because each piece that follows a run starts with a character the
run's class excludes); `re.sub` replaces every non-overlapping match, left to
right; `$` matches at the end of the string or just before a terminal newline;
`.` does not match a newline.  Python whitespace and case folding are modelled
at ASCII level, which covers every string the repository manipulates.
-/

namespace AnimeScraper

/-! ### Character classes and basic string helpers -/

/-- Python whitespace characters as matched by the `re` class fragment used in
the source's patterns (space, tab, newline, carriage return, vertical tab,
form feed). -/
def isPySpace (c : Char) : Bool :=
  c == ' ' || c == '\t' || c == '\n' || c == '\r' || c == Char.ofNat 11 || c == Char.ofNat 12

/-- Word characters for the regex word-boundary assertions in the source
(ASCII letters, digits, underscore). -/
def isWordChar (c : Char) : Bool :=
  c.isAlphanum || c == '_'

/-- Case folding used for the source's `re.IGNORECASE` flag (ASCII). -/
def lowc (c : Char) : Char := c.toLower

/-- Lowercase every character; models Python `str.lower` on the ASCII strings
the repository handles. -/
def pyLower (s : List Char) : List Char := s.map Char.toLower

/-- Decide whether the literal `w` matches at the start of `s`,
case-insensitively. -/
def ciStarts : List Char → List Char → Bool
  | [], _ => true
  | _ :: _, [] => false
  | a :: w, c :: s => (lowc c == lowc a) && ciStarts w s

/-- Decide whether the literal `w` matches at the start of `s` exactly
(case-sensitive, as for Python's `in` operator and `str.replace`). -/
def listStarts : List Char → List Char → Bool
  | [], _ => true
  | _ :: _, [] => false
  | a :: w, c :: s => (c == a) && listStarts w s

/-- Substring test: Python's case-sensitive `needle in hay`. -/
def listHas (needle : List Char) : List Char → Bool
  | [] => listStarts needle []
  | c :: cs => listStarts needle (c :: cs) || listHas needle cs

/-- Length of the maximal run of characters satisfying `p` at the head of a
list (the text a greedy character-class repetition consumes). -/
def countWhile (p : Char → Bool) (s : List Char) : Nat := (s.takeWhile p).length

/-- Maximal run of ASCII digits at the head (greedy `\d+` / `\d\x7b2,3\x7d`). -/
def digitCount (s : List Char) : Nat := countWhile Char.isDigit s

/-- Maximal whitespace run at the head (greedy `\s*` / `\s+`). -/
def wsCount (s : List Char) : Nat := countWhile isPySpace s

/-- Python `str.strip` on a character list. -/
def pyStrip (s : List Char) : List Char :=
  ((s.dropWhile isPySpace).reverse.dropWhile isPySpace).reverse

/-- Numeric value of a run of ASCII digit characters, as computed by Python's
`int` on a digits-only capture. -/
def digitsVal (ds : List Char) : Nat :=
  ds.foldl (fun a c => a * 10 + (c.toNat - 48)) 0

/-- Digit grammar accepted by Python `int` after the sign: digits with single
underscores allowed strictly between digits. `acc` holds the value of digits
already consumed. -/
def digitsUnd : Nat → List Char → Option Nat
  | acc, [] => some acc
  | acc, '_' :: c :: cs => if c.isDigit then digitsUnd (acc * 10 + (c.toNat - 48)) cs else none
  | _, ['_'] => none
  | acc, c :: cs => if c.isDigit then digitsUnd (acc * 10 + (c.toNat - 48)) cs else none

/-- Body of a Python integer literal: at least one digit, underscores only
between digits. -/
def pyIntBody : List Char → Option Nat
  | c :: cs => if c.isDigit then digitsUnd (c.toNat - 48) cs else none
  | [] => none

/-- Python `int(str)` as a partial function: strips whitespace, accepts one
optional sign, then the digit grammar; `none` models `ValueError`. -/
def pyIntOpt (s : List Char) : Option Int :=
  match pyStrip s with
  | '+' :: r => (pyIntBody r).map Int.ofNat
  | '-' :: r => (pyIntBody r).map (fun n => -(Int.ofNat n))
  | r => (pyIntBody r).map Int.ofNat

/-- Python `str.replace(pat, "")` (all non-overlapping occurrences, left to
right), with explicit fuel for structural recursion; fuel at least the length
of the subject suffices since every replacement consumes at least one
character when `pat` is non-empty. -/
def removeAllF (pat : List Char) : Nat → List Char → List Char
  | _, [] => []
  | 0, s => s
  | fuel + 1, c :: cs =>
    if listStarts pat (c :: cs) then removeAllF pat fuel ((c :: cs).drop pat.length)
    else c :: removeAllF pat fuel cs

/-- Python `s.replace(pat, "")` on strings. -/
def pyReplace (s pat : String) : String :=
  String.mk (removeAllF pat.data s.data.length s.data)

/-! ### Embedded regex matchers

Each `...Core` function tries one compiled pattern of `metadata.py` at the
head of its argument; on success it returns the number of characters the
pattern consumed together with the text of the capturing group. -/

/-- Pattern `(?:S|Season\s?)(\d+)` (IGNORECASE) at the head: the branch `S`
followed by digits is tried first, then the literal `Season`, an optional
single whitespace, and digits. -/
def seasonStdCore (s : List Char) : Option (Nat × List Char) :=
  match s with
  | c :: rest =>
    if lowc c = 's' then
      if 0 < digitCount rest then
        some (1 + digitCount rest, rest.take (digitCount rest))
      else if ciStarts ['e', 'a', 's', 'o', 'n'] rest then
        let r2 := rest.drop 5
        if 0 < digitCount r2 then
          some (6 + digitCount r2, r2.take (digitCount r2))
        else if r2.head?.elim false isPySpace then
          if 0 < digitCount r2.tail then
            some (7 + digitCount r2.tail, r2.tail.take (digitCount r2.tail))
          else none
        else none
      else none
    else none
  | [] => none

/-- The four ordinal suffixes of the pattern `(\d+)(?:st|nd|rd|th)`. -/
def ordinalSuffixes : List (List Char) := [['s', 't'], ['n', 'd'], ['r', 'd'], ['t', 'h']]

/-- Pattern `(\d+)(?:st|nd|rd|th)\s+Season` (IGNORECASE) at the head. -/
def ordNumCore (s : List Char) : Option (Nat × List Char) :=
  let d := digitCount s
  if 0 < d then
    let r1 := s.drop d
    if ordinalSuffixes.any (fun suf => ciStarts suf r1) then
      let r2 := r1.drop 2
      let w := wsCount r2
      if 0 < w then
        if ciStarts ['s', 'e', 'a', 's', 'o', 'n'] (r2.drop w) then
          some (d + 2 + w + 6, s.take d)
        else none
      else none
    else none
  else none

/-- The ten ordinal words of the season pattern, in the order the alternation
lists them (no word is a prefix of another, so at most one can match at a
position). -/
def ordinalWords : List (List Char) :=
  [['f', 'i', 'r', 's', 't'], ['s', 'e', 'c', 'o', 'n', 'd'], ['t', 'h', 'i', 'r', 'd'],
   ['f', 'o', 'u', 'r', 't', 'h'], ['f', 'i', 'f', 't', 'h'], ['s', 'i', 'x', 't', 'h'],
   ['s', 'e', 'v', 'e', 'n', 't', 'h'], ['e', 'i', 'g', 'h', 't', 'h'],
   ['n', 'i', 'n', 't', 'h'], ['t', 'e', 'n', 't', 'h']]

/-- Pattern `(First|...|Tenth)\s+Season` (IGNORECASE) at the head. -/
def ordWordCore (s : List Char) : Option (Nat × List Char) :=
  (ordinalWords.find? (fun w => ciStarts w s)).elim none (fun w =>
    let r1 := s.drop w.length
    let k := wsCount r1
    if 0 < k then
      if ciStarts ['s', 'e', 'a', 's', 'o', 'n'] (r1.drop k) then
        some (w.length + k + 6, s.take w.length)
      else none
    else none)

/-- Characters the class `[IVX]` matches under IGNORECASE. -/
def isRomanChar (c : Char) : Bool := lowc c == 'i' || lowc c == 'v' || lowc c == 'x'

/-- Pattern `Season\s+([IVX]+)\b` (IGNORECASE) at the head.  The run of
Roman-numeral characters is maximal, and the word boundary requires the next
character to be a non-word character (or the end); a shorter run would end on
a word character, so backtracking cannot help. -/
def romanCore (s : List Char) : Option (Nat × List Char) :=
  if ciStarts ['s', 'e', 'a', 's', 'o', 'n'] s then
    let r1 := s.drop 6
    let k := wsCount r1
    if 0 < k then
      let r2 := r1.drop k
      let m := countWhile isRomanChar r2
      if 0 < m then
        match r2.drop m with
        | [] => some (6 + k + m, r2.take m)
        | c :: _ => if isWordChar c then none else some (6 + k + m, r2.take m)
      else none
    else none
  else none

/-- Shared shape of the patterns `Part\s+(\d+)` and `Cour\s+(\d+)`
(IGNORECASE): a literal word, mandatory whitespace, captured digits. -/
def wordNumCore (word : List Char) (s : List Char) : Option (Nat × List Char) :=
  if ciStarts word s then
    let r1 := s.drop word.length
    let k := wsCount r1
    if 0 < k then
      let d := digitCount (r1.drop k)
      if 0 < d then some (word.length + k + d, (r1.drop k).take d) else none
    else none
  else none

/-- Pattern `Part\s+(\d+)` (IGNORECASE) at the head. -/
def partCore (s : List Char) : Option (Nat × List Char) := wordNumCore ['p', 'a', 'r', 't'] s

/-- Pattern `Cour\s+(\d+)` (IGNORECASE) at the head. -/
def courCore (s : List Char) : Option (Nat × List Char) := wordNumCore ['c', 'o', 'u', 'r'] s

/-- Helper for the episode pattern: `\s?(\d+)` with `base` characters already
consumed.  The optional whitespace and a digit are mutually exclusive, so the
greedy optional is deterministic. -/
def wsOptDigits (base : Nat) (s : List Char) : Option (Nat × List Char) :=
  if 0 < digitCount s then some (base + digitCount s, s.take (digitCount s))
  else if s.head?.elim false isPySpace then
    if 0 < digitCount s.tail then
      some (base + 1 + digitCount s.tail, s.tail.take (digitCount s.tail))
    else none
  else none

/-- Pattern `(?:E|Ep\.?\s?|Episode\s?)(\d+)` (IGNORECASE) at the head, with
the alternatives tried in the written order. -/
def epCore (s : List Char) : Option (Nat × List Char) :=
  match s with
  | c :: rest =>
    if lowc c = 'e' then
      if 0 < digitCount rest then some (1 + digitCount rest, rest.take (digitCount rest))
      else
        (if ciStarts ['p'] rest then
          (if (rest.drop 1).head? = some '.' then wsOptDigits 3 (rest.drop 1).tail
           else wsOptDigits 2 (rest.drop 1))
         else none).orElse (fun _ =>
          if ciStarts ['p', 'i', 's', 'o', 'd', 'e'] rest then wsOptDigits 7 (rest.drop 6)
          else none)
    else none
  | [] => none

/-- Pattern `-\s*\d+` at the head (the core of the trailing episode-number
removal `\s*-\s*\d+.*`). -/
def dashNumCore (s : List Char) : Option (Nat × List Char) :=
  match s with
  | [] => none
  | c :: rest =>
    if c = '-' then
      let k := wsCount rest
      let d := digitCount (rest.drop k)
      if 0 < d then some (1 + k + d, (rest.drop k).take d) else none
    else none

/-- Follower class `(?:\s|$|\[|\()` of the bare episode-number branch; `$`
adds only the end-of-string case because a qualifying newline is already
whitespace. -/
def epFollower (r : List Char) : Bool :=
  match r with
  | [] => true
  | c :: _ => isPySpace c || c == '[' || c == '('

/-- Bare-number branch `[\s\-]\s?(\d\x7b2,3\x7d)(?:\s|$|\[|\()` of the episode
search pattern: a greedy two-or-three digit capture, three digits tried
first. -/
def episodeBareCore (s : List Char) : Option (Nat × List Char) :=
  match s with
  | c :: rest =>
    if isPySpace c || c == '-' then
      let pr : Nat × List Char :=
        match rest with
        | w :: r2 => if isPySpace w then (2, r2) else (1, w :: r2)
        | [] => (1, [])
      let d := digitCount pr.2
      if 3 ≤ d then
        if epFollower (pr.2.drop 3) then some (pr.1 + 3, pr.2.take 3) else
        if 2 ≤ d then
          if epFollower (pr.2.drop 2) then some (pr.1 + 2, pr.2.take 2) else none
        else none
      else if 2 ≤ d then
        if epFollower (pr.2.drop 2) then some (pr.1 + 2, pr.2.take 2) else none
      else none
    else none
  | [] => none

/-- Full episode search pattern: the explicit `E`-prefixed branch is tried
before the bare-number branch at each position. -/
def episodeSearchCore (s : List Char) : Option (Nat × List Char) :=
  (epCore s).orElse (fun _ => episodeBareCore s)

/-- Quality tokens in the order the alternation of the quality pattern lists
them. -/
def qualityTokens : List (List Char) :=
  [['4', 'K'], ['2', '1', '6', '0', 'p'], ['1', '0', '8', '0', 'p'], ['7', '2', '0', 'p'],
   ['4', '8', '0', 'p'], ['3', '6', '0', 'p'], ['F', 'H', 'D'], ['H', 'D'],
   ['1', '9', '2', '0', 'x', '1', '0', '8', '0'], ['1', '2', '8', '0', 'x', '7', '2', '0'],
   ['S', 'D']]

/-- Quality pattern at the head (IGNORECASE): first alternative that matches
wins, and the capture preserves the original casing of the subject. -/
def qualityCore (s : List Char) : Option (Nat × List Char) :=
  match qualityTokens.find? (fun tok => ciStarts tok s) with
  | some tok => some (tok.length, s.take tok.length)
  | none => none

/-- Lowercase ASCII letters, the class `[a-z]` (this pattern is compiled
without IGNORECASE). -/
def isLowerAlpha (c : Char) : Bool := 'a' ≤ c && c ≤ 'z'

/-- End-of-string assertion `$` without MULTILINE: the remainder is empty or a
single terminal newline. -/
def endOk (r : List Char) : Bool := r.isEmpty || r == ['\n']

/-- Pattern `-([A-Za-z0-9]+)(?:\.[a-z]\x7b2,4\x7d)?$` at the head: a scene
release-group suffix with an optional file extension, anchored at the end. -/
def rgEndCore (s : List Char) : Option (Nat × List Char) :=
  match s with
  | '-' :: rest =>
    let a := countWhile Char.isAlphanum rest
    if 0 < a then
      let cap := rest.take a
      let r := rest.drop a
      match r with
      | '.' :: r2 =>
        let l := countWhile isLowerAlpha r2
        if 4 ≤ l then
          if endOk (r2.drop 4) then some (1 + a + 1 + 4, cap) else
          if 3 ≤ l && endOk (r2.drop 3) then some (1 + a + 1 + 3, cap) else
          if 2 ≤ l && endOk (r2.drop 2) then some (1 + a + 1 + 2, cap) else none
        else if 3 ≤ l && endOk (r2.drop 3) then some (1 + a + 1 + 3, cap)
        else if 2 ≤ l && endOk (r2.drop 2) then some (1 + a + 1 + 2, cap)
        else none
      | _ => if endOk r then some (1 + a, cap) else none
    else none
  | _ => none

/-- Leading release-group pattern `^\[([^\]]+)\]|^\(([^)]+)\)`: anchored at
the start, capture non-empty, and `match.group(1) or match.group(2)` picks
whichever branch matched. -/
def bracketStartCapture (s : List Char) : Option (List Char) :=
  match s with
  | '[' :: rest =>
    let m := countWhile (fun ch => ch != ']') rest
    if 0 < m then
      match rest.drop m with
      | ']' :: _ => some (rest.take m)
      | _ => none
    else none
  | '(' :: rest =>
    let m := countWhile (fun ch => ch != ')') rest
    if 0 < m then
      match rest.drop m with
      | ')' :: _ => some (rest.take m)
      | _ => none
    else none
  | _ => none

/-- The substitution `release_group_start.sub("", title)`: since the pattern
is anchored at position zero it removes at most one leading group. -/
def stripLeadGroupList (s : List Char) : List Char :=
  match s with
  | [] => []
  | c :: rest =>
    if c = '[' then
      let m := countWhile (fun ch => ch != ']') rest
      if 0 < m then
        match rest.drop m with
        | ']' :: tail => tail
        | _ => c :: rest
      else c :: rest
    else if c = '(' then
      let m := countWhile (fun ch => ch != ')') rest
      if 0 < m then
        match rest.drop m with
        | ')' :: tail => tail
        | _ => c :: rest
      else c :: rest
    else c :: rest

/-! ### Search and substitution engines -/

/-- Python `pattern.search`: try the pattern at every start position, left to
right, and return the first capture. -/
def reSearch (core : List Char → Option (Nat × List Char)) : List Char → Option (List Char)
  | [] => (core []).map Prod.snd
  | c :: cs =>
    match core (c :: cs) with
    | some r => some r.2
    | none => reSearch core cs

/-- Remainder of a list from its first newline (what `.*` leaves behind:
everything up to the newline is consumed). -/
def lineTail (s : List Char) : List Char := s.dropWhile (fun ch => ch != '\n')

/-- One full `re.sub(r"\s*CORE.*", "", s)` pass: at each position the engine
tries a maximal whitespace run followed by the core (every core starts with a
non-whitespace character, so a shorter run cannot succeed) and then `.*`
consumes to the end of the line; scanning resumes after the match.  Structural
fuel at least the length of the argument suffices because every match consumes
at least one character. -/
def subScanF (core : List Char → Option (Nat × List Char)) : Nat → List Char → List Char
  | _, [] => []
  | 0, s => s
  | fuel + 1, c :: cs =>
    let w := wsCount (c :: cs)
    match core ((c :: cs).drop w) with
    | some r => subScanF core fuel (lineTail ((c :: cs).drop (w + r.1)))
    | none => c :: subScanF core fuel cs

/-- Substitution wrapper supplying sufficient fuel. -/
def subScan (core : List Char → Option (Nat × List Char)) (s : List Char) : List Char :=
  subScanF core s.length s

/-- Head test for `\s*[\[\(][^\]\)]*[\]\)]\s*$`: whitespace, an opening
bracket, a run of non-closing characters, a closing bracket, and only
whitespace to the end. -/
def bracketEndMatchAt (s : List Char) : Bool :=
  let w := wsCount s
  match s.drop w with
  | b :: rest =>
    if b == '[' || b == '(' then
      let m := countWhile (fun ch => ch != ']' && ch != ')') rest
      match rest.drop m with
      | cl :: tail => (cl == ']' || cl == ')') && tail.all isPySpace
      | [] => false
    else false
  | [] => false

/-- Substitution `re.sub(r"\s*[\[\(][^\]\)]*[\]\)]\s*$", "", s)`: a single
end-anchored match removes everything from its start position. -/
def g9scan : List Char → List Char
  | [] => []
  | c :: cs => if bracketEndMatchAt (c :: cs) then [] else c :: g9scan cs

/-- Head test for `\s*[\[\(].*$`; on success returns what the match leaves in
place, which is a terminal newline when `$` matched just before it. -/
def bracketAnyMatchAt (s : List Char) : Option (List Char) :=
  let w := wsCount s
  match s.drop w with
  | b :: rest =>
    if b == '[' || b == '(' then
      match lineTail rest with
      | [] => some []
      | nl :: after => if after.isEmpty then some [nl] else none
    else none
  | [] => none

/-- Substitution `re.sub(r"\s*[\[\(].*$", "", s)`. -/
def g10scan : List Char → List Char
  | [] => []
  | c :: cs =>
    match bracketAnyMatchAt (c :: cs) with
    | some leftover => leftover
    | none => c :: g10scan cs

/-- Search engine for the boolean language patterns, threading the previous
character so the word-boundary assertions of alternatives such as `\bDub\b`
can look left. -/
def reSearchBool (pat : Option Char → List Char → Bool) : Option Char → List Char → Bool
  | prev, [] => pat prev []
  | prev, c :: cs => pat prev (c :: cs) || reSearchBool pat (some c) cs

/-- Left word boundary `\b` before a word character: start of string or a
non-word character before the position. -/
def boundaryL (prev : Option Char) : Bool :=
  match prev with
  | none => true
  | some c => !(isWordChar c)

/-- Right word boundary `\b` after a word character: end of string or a
non-word character next. -/
def boundaryR (r : List Char) : Bool :=
  match r with
  | [] => true
  | c :: _ => !(isWordChar c)

/-- Two literals separated by `\s*`, case-insensitively (the second literal
starts with a non-whitespace character, so the maximal run is the only
candidate). -/
def ciThenWsThen (w1 w2 : List Char) (s : List Char) : Bool :=
  ciStarts w1 s &&
    (let r := s.drop w1.length
     ciStarts w2 (r.drop (wsCount r)))

/-- Head test for the audio pattern
`(English\s*Dub|Eng\s*Dub|Dubbed|Dual\s*Audio|\bDUAL\b|\bDub\b)`
(IGNORECASE); only existence matters to the caller, so the alternatives are
combined with disjunction. -/
def audioEnAt (prev : Option Char) (s : List Char) : Bool :=
  ciThenWsThen ['e', 'n', 'g', 'l', 'i', 's', 'h'] ['d', 'u', 'b'] s ||
  ciThenWsThen ['e', 'n', 'g'] ['d', 'u', 'b'] s ||
  ciStarts ['d', 'u', 'b', 'b', 'e', 'd'] s ||
  ciThenWsThen ['d', 'u', 'a', 'l'] ['a', 'u', 'd', 'i', 'o'] s ||
  (boundaryL prev && ciStarts ['d', 'u', 'a', 'l'] s && boundaryR (s.drop 4)) ||
  (boundaryL prev && ciStarts ['d', 'u', 'b'] s && boundaryR (s.drop 3))

/-- Head test for `(Japanese|JPN|Raw|\bJap\b)` (IGNORECASE). -/
def audioJpAt (prev : Option Char) (s : List Char) : Bool :=
  ciStarts ['j', 'a', 'p', 'a', 'n', 'e', 's', 'e'] s ||
  ciStarts ['j', 'p', 'n'] s ||
  ciStarts ['r', 'a', 'w'] s ||
  (boundaryL prev && ciStarts ['j', 'a', 'p'] s && boundaryR (s.drop 3))

/-- Head test for
`(English\s*Sub|Eng\s*Sub|Subbed|\bSub\b|\[Eng\]|English)` (IGNORECASE). -/
def subEnAt (prev : Option Char) (s : List Char) : Bool :=
  ciThenWsThen ['e', 'n', 'g', 'l', 'i', 's', 'h'] ['s', 'u', 'b'] s ||
  ciThenWsThen ['e', 'n', 'g'] ['s', 'u', 'b'] s ||
  ciStarts ['s', 'u', 'b', 'b', 'e', 'd'] s ||
  (boundaryL prev && ciStarts ['s', 'u', 'b'] s && boundaryR (s.drop 3)) ||
  ciStarts ['[', 'e', 'n', 'g', ']'] s ||
  ciStarts ['e', 'n', 'g', 'l', 'i', 's', 'h'] s

/-- Head test for `(Multi-?Sub|MultiSub)` (IGNORECASE); the second alternative
is subsumed by the optional hyphen of the first. -/
def subMultiAt (_prev : Option Char) (s : List Char) : Bool :=
  ciStarts ['m', 'u', 'l', 't', 'i'] s &&
    (match s.drop 5 with
     | '-' :: r => ciStarts ['s', 'u', 'b'] r
     | r => ciStarts ['s', 'u', 'b'] r)

/-! ### Field extractors (`anime_scraper/metadata.py`) -/

/-- Source `extract_release_group`: leading bracketed group first, then the
trailing scene-style suffix, else the default. -/
def extract_release_group (title : String) : String :=
  match bracketStartCapture title.data with
  | some g => String.mk g
  | none =>
    match reSearch rgEndCore title.data with
    | some g => String.mk g
    | none => "Unknown"

/-- Source `ORDINAL_WORDS` table (word, value). -/
def ordinalWordTable : List (List Char × Nat) :=
  [(['f', 'i', 'r', 's', 't'], 1), (['s', 'e', 'c', 'o', 'n', 'd'], 2),
   (['t', 'h', 'i', 'r', 'd'], 3), (['f', 'o', 'u', 'r', 't', 'h'], 4),
   (['f', 'i', 'f', 't', 'h'], 5), (['s', 'i', 'x', 't', 'h'], 6),
   (['s', 'e', 'v', 'e', 'n', 't', 'h'], 7), (['e', 'i', 'g', 'h', 't', 'h'], 8),
   (['n', 'i', 'n', 't', 'h'], 9), (['t', 'e', 'n', 't', 'h'], 10)]

/-- Source `_parse_ordinal_word` (the leading underscore is dropped in Lean):
dictionary lookup on the lowercased word, defaulting to 1. -/
def parse_ordinal_word (word : List Char) : Nat :=
  ((ordinalWordTable.find? (fun p => p.1 == pyLower word)).map Prod.snd).getD 1

/-- Values of the source's `roman_values` dictionary with its `.get(c, 0)`
default. -/
def romanCharValue (c : Char) : Nat :=
  if c = 'I' then 1 else if c = 'V' then 5 else if c = 'X' then 10 else 0

/-- Loop of `_parse_roman_numeral` over the reversed, uppercased numeral,
carrying the running result and the previous character's value. -/
def parseRomanLoop : List Char → Int → Int → Int
  | [], result, _ => result
  | c :: cs, result, prevv =>
    let v : Int := romanCharValue c.toUpper
    if v < prevv then parseRomanLoop cs (result - v) v else parseRomanLoop cs (result + v) v

/-- Source `_parse_roman_numeral` (leading underscore dropped): subtractive
evaluation, defaulting to 1 for a non-positive result. -/
def parse_roman_numeral (numeral : List Char) : Nat :=
  let r := parseRomanLoop numeral.reverse 0 0
  if 0 < r then r.toNat else 1

/-- Source `_extract_season_number` (leading underscore dropped): the six
strategies in priority order, each a full regex search, first match wins. -/
def extract_season_number (text : String) : Option Nat :=
  match reSearch seasonStdCore text.data with
  | some ds => some (digitsVal ds)
  | none =>
    match reSearch ordNumCore text.data with
    | some ds => some (digitsVal ds)
    | none =>
      match reSearch ordWordCore text.data with
      | some w => some (parse_ordinal_word w)
      | none =>
        match reSearch romanCore text.data with
        | some numeral => some (parse_roman_numeral numeral)
        | none =>
          match reSearch partCore text.data with
          | some ds => some (digitsVal ds)
          | none =>
            match reSearch courCore text.data with
            | some ds => some (digitsVal ds)
            | none => none

/-- Source `extract_season`: title first, then description, then the
default. -/
def extract_season (title description : String) : String :=
  match extract_season_number title with
  | some n => "Season " ++ toString n
  | none =>
    match extract_season_number description with
    | some n => "Season " ++ toString n
    | none => "Season 1"

/-- Source `extract_episode`: search the combined episode pattern and format
the captured digits through `int`. -/
def extract_episode (title : String) : String :=
  match reSearch episodeSearchCore title.data with
  | some ds => "Episode " ++ toString (digitsVal ds)
  | none => ""

/-- Source `extract_quality`: title first, then description, preserving the
casing of the match. -/
def extract_quality (title description : String) : String :=
  match reSearch qualityCore title.data with
  | some cap => String.mk cap
  | none =>
    match reSearch qualityCore description.data with
    | some cap => String.mk cap
    | none => "Unknown"

/-- Python's case-sensitive substring operator `in` on strings. -/
def pyContains (needle hay : String) : Bool := listHas needle.data hay.data

/-- Source `extract_audio_language` on combined title and description, with
the category fallback. -/
def extract_audio_language (title description category : String) : String :=
  let combined := title ++ " " ++ description
  if reSearchBool audioEnAt none combined.data then "English"
  else if reSearchBool audioJpAt none combined.data then "Japanese"
  else if pyContains "Raw" category then "Japanese"
  else "Japanese"

/-- Source `extract_subtitle_language`. -/
def extract_subtitle_language (title description category : String) : String :=
  let combined := title ++ " " ++ description
  if reSearchBool subMultiAt none combined.data then "Multi"
  else if reSearchBool subEnAt none combined.data then "English"
  else if pyContains "English-translated" category then "English"
  else if pyContains "Raw" category then "None"
  else "Unknown"

/-- Source `extract_anime_name`: the ten stripping passes in source order,
then trim, with `"Unknown"` for an empty remainder. -/
def extract_anime_name (title : String) : String :=
  let n0 := pyStrip (stripLeadGroupList title.data)
  let n1 := subScan seasonStdCore n0
  let n2 := subScan ordNumCore n1
  let n3 := subScan ordWordCore n2
  let n4 := subScan romanCore n3
  let n5 := subScan partCore n4
  let n6 := subScan courCore n5
  let n7 := subScan epCore n6
  let n8 := subScan dashNumCore n7
  let n9 := g9scan n8
  let n10 := g10scan n9
  let r := pyStrip n10
  if r.isEmpty then "Unknown" else String.mk r

/-- The character-list pipeline of `extract_anime_name` before the final
empty-remainder check: the same ten stages written as a nested application,
convenient for stage-by-stage reasoning. -/
def nameList (s : List Char) : List Char :=
  pyStrip (g10scan (g9scan (subScan dashNumCore (subScan epCore (subScan courCore
    (subScan partCore (subScan romanCore (subScan ordWordCore (subScan ordNumCore
      (subScan seasonStdCore (pyStrip (stripLeadGroupList s))))))))))))

/-! ### Data model (`anime_scraper/models.py`) -/

/-- Source dataclass `TorrentMetadata` with its field defaults. -/
structure TorrentMetadata where
  anime_name : String := "Unknown"
  season : String := "Season 1"
  episode : String := ""
  quality : String := "Unknown"
  audio_language : String := "Unknown"
  subtitle_language : String := "Unknown"
  release_group : String := "Unknown"
  description : String := ""
deriving DecidableEq

/-- Source `TorrentMetadata.group_key`: the pipe-delimited concatenation of
the six grouping fields. -/
def TorrentMetadata.group_key (m : TorrentMetadata) : String :=
  m.release_group ++ "|" ++ m.anime_name ++ "|" ++ m.season ++ "|" ++
    m.audio_language ++ "|" ++ m.subtitle_language ++ "|" ++ m.quality

/-- Source `TorrentMetadata.group_name`: dash-joined parts with the optional
language and quality segments. -/
def TorrentMetadata.group_name (m : TorrentMetadata) : String :=
  let parts := [m.release_group, m.anime_name, m.season]
  let parts := if m.audio_language ≠ "" ∧ m.audio_language ≠ "Unknown" then
    parts ++ ["DUB " ++ m.audio_language] else parts
  let parts := if m.subtitle_language ≠ "" ∧ m.subtitle_language ≠ "Unknown" then
    parts ++ ["SUB " ++ m.subtitle_language] else parts
  let parts := if m.quality ≠ "" ∧ m.quality ≠ "Unknown" then
    parts ++ ["QUALITY " ++ m.quality] else parts
  String.intercalate " - " parts

/-- Source dataclass `Torrent` (the fields the grouping pipeline reads). -/
structure Torrent where
  id : String := ""
  name : String := ""
  magnet : String := ""
  torrent_url : String := ""
  size : String := ""
  date : String := ""
  seeders : Nat := 0
  leechers : Nat := 0
  downloads : Nat := 0
  category : String := ""
  submitter : String := "Anonymous"
  metadata : Option TorrentMetadata := none
deriving DecidableEq

/-- Source dataclass `TorrentGroup`. -/
structure TorrentGroup where
  name : String
  description : String
  torrents : List Torrent := []
  episode_range : String := ""
  quality : String := ""
  is_dubbed : Bool := false
deriving DecidableEq

/-- Source property `TorrentGroup.total_seeders`. -/
def TorrentGroup.total_seeders (g : TorrentGroup) : Nat :=
  (g.torrents.map Torrent.seeders).sum

/-! ### Utilities (`anime_scraper/utils.py`) -/

/-- Source `DUB_KEYWORDS`. -/
def DUB_KEYWORDS : List String := ["dub", "dubbed", "dual audio", "dual", "english dub"]

/-- Source `contains_dub_keywords`: lowercase the name and test each keyword
as a substring. -/
def contains_dub_keywords (name : String) : Bool :=
  DUB_KEYWORDS.any (fun kw => listHas kw.data (pyLower name.data))

/-! ### Metadata record builder (`extract_metadata_from_detail`) -/

/-- Detail record returned by the page fetcher, with the defaults
`fetch_detail_page` initializes (the unused file list is omitted). -/
structure DetailRecord where
  title : String := ""
  submitter : String := "Anonymous"
  category : String := ""
  description : String := ""
deriving DecidableEq

/-- Source `extract_metadata_from_detail`: all extractors over the record,
with a non-empty, non-Anonymous submitter overriding the regex-extracted
release group and the description capped at 200 characters. -/
def extract_metadata_from_detail (detail : DetailRecord) : TorrentMetadata :=
  let title := detail.title
  let description := detail.description
  let category := detail.category
  let submitter := detail.submitter
  let release_group :=
    if submitter ≠ "" ∧ submitter ≠ "Anonymous" then submitter
    else extract_release_group title
  { anime_name := extract_anime_name title
    season := extract_season title description
    episode := extract_episode title
    quality := extract_quality title description
    audio_language := extract_audio_language title description category
    subtitle_language := extract_subtitle_language title description category
    release_group := release_group
    description := if description ≠ "" then String.mk (description.data.take 200) else "" }

/-! ### Grouping engine (`anime_scraper/grouper.py`) -/

/-- Fallback-metadata assignment of `group_torrents_deterministic`: a torrent
without metadata receives `TorrentMetadata(anime_name=anime_name)`, every
other field at its default. -/
def assignMeta (anime_name : String) (t : Torrent) : Torrent :=
  match t.metadata with
  | none => { t with metadata := some { anime_name := anime_name } }
  | some _ => t

/-- Grouping key read off a torrent, `torrent.metadata.group_key()`; after
`assignMeta` the metadata is always present, so the `none` arm is
unreachable in the pipeline. -/
def torrentKey (t : Torrent) : String :=
  match t.metadata with
  | some m => m.group_key
  | none => TorrentMetadata.group_key {}

/-- One `groups_dict[key].append(torrent)` step on the insertion-ordered
dictionary, modelled as an association list: an existing key's bucket is
extended in place, a new key is appended at the end. -/
def addToBucket : List (String × List Torrent) → String → Torrent → List (String × List Torrent)
  | [], k, t => [(k, [t])]
  | (k0, ts) :: rest, k, t =>
    if k0 = k then (k0, ts ++ [t]) :: rest
    else (k0, ts) :: addToBucket rest k t

/-- The filled `groups_dict`: buckets in first-encounter key order, each
bucket in input order. -/
def buckets (ts : List Torrent) : List (String × List Torrent) :=
  ts.foldl (fun bs t => addToBucket bs (torrentKey t) t) []

/-- Episode numbers collected for one bucket: members with metadata and a
non-empty episode field, the `"Episode "` prefix removed and the remainder
parsed by `int`, unparsable values skipped. -/
def collectEpisodes (torrent_list : List Torrent) : List Int :=
  torrent_list.filterMap (fun t =>
    match t.metadata with
    | some m => if m.episode ≠ "" then pyIntOpt (pyReplace m.episode "Episode ").data else none
    | none => none)

/-- Insertion step of an ascending integer sort (`episodes.sort()`; on
integers any correct sort agrees with Python's stable sort). -/
def insertAsc (x : Int) : List Int → List Int
  | [] => [x]
  | h :: t => if x ≤ h then x :: h :: t else h :: insertAsc x t

/-- Ascending sort of the collected episode numbers. -/
def sortAsc (l : List Int) : List Int := l.foldr insertAsc []

/-- Episode-range label of one bucket: sorted episode list, then the
one-element format, the min-max format, or `"Various"` for an empty list;
`min`/`max` fold over the list exactly as Python's built-ins do. -/
def episodeRangeLabel (episodes : List Int) : String :=
  match sortAsc episodes with
  | [] => "Various"
  | [e] => "Episode " ++ toString e
  | e :: rest => "Episodes " ++ toString (rest.foldl min e) ++ "-" ++ toString (rest.foldl max e)

/-- Python `str.lower` on a string value. -/
def pyLowerS (s : String) : String := String.mk (pyLower s.data)

/-- Construction of one `TorrentGroup` from a bucket, using the first
torrent's metadata as representative (buckets are never empty; the empty arm
mirrors the partial indexing `torrent_list[0]`). -/
def mkGroup (torrent_list : List Torrent) : TorrentGroup :=
  let metadata :=
    match torrent_list with
    | t :: _ => t.metadata.getD {}
    | [] => ({} : TorrentMetadata)
  let episode_range := episodeRangeLabel (collectEpisodes torrent_list)
  let is_dubbed :=
    (pyLowerS metadata.audio_language == "english") ||
      torrent_list.any (fun t => contains_dub_keywords t.name)
  { name := metadata.group_name
    description := "Release group: " ++ metadata.release_group ++ ", Quality: " ++
      metadata.quality ++ ", Audio: " ++ metadata.audio_language ++ ", Subs: " ++
      metadata.subtitle_language
    torrents := torrent_list
    episode_range := episode_range
    quality := metadata.quality
    is_dubbed := is_dubbed }

/-- Insertion step of the descending stable sort
`groups.sort(key=..., reverse=True)`: a group moves past exactly those groups
with strictly fewer total seeders, so equal totals keep their original
order. -/
def insertDesc (g : TorrentGroup) : List TorrentGroup → List TorrentGroup
  | [] => [g]
  | h :: t => if h.total_seeders ≤ g.total_seeders then g :: h :: t else h :: insertDesc g t

/-- Stable descending sort by total seeders (a stable sort is uniquely
determined by the order and stability, so insertion sort agrees with
Python's sort). -/
def sortDesc (l : List TorrentGroup) : List TorrentGroup := l.foldr insertDesc []

/-- Group list in bucket (first-encounter) order, before the final sort. -/
def preSortGroups (ts : List Torrent) : List TorrentGroup :=
  (buckets ts).map (fun kv => mkGroup kv.2)

/-- Source `group_torrents_deterministic`: early return on the empty list,
fallback-metadata assignment, bucketing by `group_key`, group construction,
and the descending stable sort by total seeders. -/
def group_torrents_deterministic (torrents : List Torrent) (anime_name : String) :
    List TorrentGroup :=
  if torrents.isEmpty then []
  else sortDesc (preSortGroups (torrents.map (assignMeta anime_name)))

/-! ### Auxiliary definitions used in the claim statements -/

/-- First-encounter deduplication of a key list; mirrors the key order the
insertion-ordered dictionary of the grouping engine produces. -/
def orderedKeys (l : List String) : List String :=
  l.foldl (fun acc k => if k ∈ acc then acc else acc ++ [k]) []

/-- Exactly one of the six grouping-key fields differs between two metadata
records and the other five agree (the non-key `description` field is
unconstrained). -/
def oneKeyFieldDiff (m1 m2 : TorrentMetadata) : Prop :=
  (m1.release_group ≠ m2.release_group ∧ m1.anime_name = m2.anime_name ∧
    m1.season = m2.season ∧ m1.audio_language = m2.audio_language ∧
    m1.subtitle_language = m2.subtitle_language ∧ m1.quality = m2.quality) ∨
  (m1.release_group = m2.release_group ∧ m1.anime_name ≠ m2.anime_name ∧
    m1.season = m2.season ∧ m1.audio_language = m2.audio_language ∧
    m1.subtitle_language = m2.subtitle_language ∧ m1.quality = m2.quality) ∨
  (m1.release_group = m2.release_group ∧ m1.anime_name = m2.anime_name ∧
    m1.season ≠ m2.season ∧ m1.audio_language = m2.audio_language ∧
    m1.subtitle_language = m2.subtitle_language ∧ m1.quality = m2.quality) ∨
  (m1.release_group = m2.release_group ∧ m1.anime_name = m2.anime_name ∧
    m1.season = m2.season ∧ m1.audio_language ≠ m2.audio_language ∧
    m1.subtitle_language = m2.subtitle_language ∧ m1.quality = m2.quality) ∨
  (m1.release_group = m2.release_group ∧ m1.anime_name = m2.anime_name ∧
    m1.season = m2.season ∧ m1.audio_language = m2.audio_language ∧
    m1.subtitle_language ≠ m2.subtitle_language ∧ m1.quality = m2.quality) ∨
  (m1.release_group = m2.release_group ∧ m1.anime_name = m2.anime_name ∧
    m1.season = m2.season ∧ m1.audio_language = m2.audio_language ∧
    m1.subtitle_language = m2.subtitle_language ∧ m1.quality ≠ m2.quality)

/-- Episode-range label as the claim's wording describes it, for comparison
with the code: the label computed from the SET of parsed episode numbers
(duplicates collapsed), formatted from its sorted enumeration.  The code
instead keeps the collected list with multiplicity. -/
def specEpisodeRangeLabel (episodes : List Int) : String :=
  match sortAsc episodes.dedup with
  | [] => "Various"
  | [e] => "Episode " ++ toString e
  | e :: rest => "Episodes " ++ toString (rest.foldl min e) ++ "-" ++ toString (rest.foldl max e)

/-- Decidable check that a core pattern matches nowhere in a string (at no
start position). -/
def coreFreeB (core : List Char → Option (Nat × List Char)) (s : List Char) : Bool :=
  s.tails.all (fun v => (core v).isNone)

/-- Proposition that a core pattern matches at no suffix of a string (the
substitution with that core leaves the string unchanged). -/
def NoCore (core : List Char → Option (Nat × List Char)) (s : List Char) : Prop :=
  ∀ u v : List Char, s = u ++ v → core v = none

/-- One list is obtained from another by dropping a prefix and then taking a
prefix, i.e. it is a contiguous segment; every stage of the anime-name
pipeline produces a segment of its input on newline-free strings. -/
def Reach (x y : List Char) : Prop := ∃ a b, y = (x.drop a).take b

/-- A core is monotone when a match at the head of a truncated list implies a
match at the head of the full list; every core of the stripping pipeline
except the Roman-numeral one (whose trailing word boundary a truncation can
create) is monotone. -/
def MonoCore (core : List Char → Option (Nat × List Char)) : Prop :=
  ∀ (u : List Char) (k : Nat), (core (u.take k)).isSome → (core u).isSome

/-- Torrent with only an episode field set, used in concrete grouping
examples; all six key fields are at their defaults, so any two such torrents
share one group key. -/
def epTorrent (i : String) (e : String) : Torrent :=
  { id := i, seeders := 10, metadata := some { episode := e } }

/-- Torrent with a release group and a seeder count, used in concrete
grouping examples. -/
def rgTorrent (rg : String) (s : Nat) : Torrent :=
  { seeders := s, metadata := some { release_group := rg } }

/-! ## Lemmas about the sorting helpers -/

lemma insertDesc_perm (g : TorrentGroup) : ∀ l, (insertDesc g l).Perm (g :: l)
  | [] => List.Perm.refl _
  | h :: t => by
    unfold insertDesc
    split
    · exact List.Perm.refl _
    · exact ((insertDesc_perm g t).cons h).trans (List.Perm.swap g h t)

lemma sortDesc_perm : ∀ l, (sortDesc l).Perm l
  | [] => List.Perm.refl _
  | h :: t => by
    show (insertDesc h (sortDesc t)).Perm (h :: t)
    exact (insertDesc_perm h (sortDesc t)).trans ((sortDesc_perm t).cons h)

lemma sortDesc_length (l : List TorrentGroup) : (sortDesc l).length = l.length :=
  (sortDesc_perm l).length_eq

lemma mem_insertDesc {x g : TorrentGroup} {l : List TorrentGroup} :
    x ∈ insertDesc g l ↔ x = g ∨ x ∈ l :=
  ((insertDesc_perm g l).mem_iff).trans (by simp)

lemma insertDesc_sorted (g : TorrentGroup) :
    ∀ l, l.Pairwise (fun a b => b.total_seeders ≤ a.total_seeders) →
      (insertDesc g l).Pairwise (fun a b => b.total_seeders ≤ a.total_seeders)
  | [], _ => by simp [insertDesc]
  | h :: t, hp => by
    rw [List.pairwise_cons] at hp
    unfold insertDesc
    split
    · rename_i hle
      exact List.Pairwise.cons
        (by
          intro b hb
          rcases List.mem_cons.mp hb with hb | hb
          · exact hb ▸ hle
          · exact le_trans (hp.1 b hb) hle)
        (List.Pairwise.cons hp.1 hp.2)
    · rename_i hgt
      exact List.Pairwise.cons
        (by
          intro b hb
          rcases mem_insertDesc.mp hb with hb | hb
          · exact hb ▸ le_of_not_le hgt
          · exact hp.1 b hb)
        (insertDesc_sorted g t hp.2)

lemma sortDesc_sorted : ∀ l, (sortDesc l).Pairwise (fun a b => b.total_seeders ≤ a.total_seeders)
  | [] => List.Pairwise.nil
  | h :: t => insertDesc_sorted h (sortDesc t) (sortDesc_sorted t)

lemma insertDesc_filter (n : Nat) (g : TorrentGroup) :
    ∀ l, (insertDesc g l).filter (fun x => x.total_seeders == n) =
      if g.total_seeders = n then g :: l.filter (fun x => x.total_seeders == n)
      else l.filter (fun x => x.total_seeders == n)
  | [] => by
    by_cases hg : g.total_seeders = n <;> simp [insertDesc, hg]
  | h :: t => by
    unfold insertDesc
    split
    · rename_i hle
      by_cases hg : g.total_seeders = n <;> simp [hg, List.filter_cons]
    · rename_i hgt
      by_cases hg : g.total_seeders = n
      · have hh : ¬ h.total_seeders = n := by omega
        simp [List.filter_cons, hh, insertDesc_filter n g t, hg]
      · by_cases hh : h.total_seeders = n <;>
          simp [List.filter_cons, hh, insertDesc_filter n g t, hg]

lemma sortDesc_filter (n : Nat) :
    ∀ l, (sortDesc l).filter (fun x => x.total_seeders == n) =
      l.filter (fun x => x.total_seeders == n)
  | [] => rfl
  | h :: t => by
    show (insertDesc h (sortDesc t)).filter _ = _
    by_cases hh : h.total_seeders = n <;>
      simp [insertDesc_filter n h (sortDesc t), hh, sortDesc_filter n t, List.filter_cons]

lemma group_eq_sort (ts : List Torrent) (name : String) :
    group_torrents_deterministic ts name =
      sortDesc (preSortGroups (ts.map (assignMeta name))) := by
  cases ts <;> rfl

/-! ## String cancellation lemmas for the group key -/

lemma string_cancel_right {a b s : String} (h : a ++ s = b ++ s) : a = b := by
  apply String.ext
  have hd := congrArg String.data h
  simp only [String.data_append] at hd
  exact List.append_cancel_right hd

lemma string_cancel_left {s a b : String} (h : s ++ a = s ++ b) : a = b := by
  apply String.ext
  have hd := congrArg String.data h
  simp only [String.data_append] at hd
  exact List.append_cancel_left hd

/-! ## Claim theorems (first batch) -/

/-- C3.  The grouping function is deterministic: two calls on the same
torrent list and fallback name produce groups with identical display names,
identical torrent membership, and identical ordering.  The embedding models
the insertion-ordered Python dictionary and the stable sort explicitly, so
the whole computation is a pure function of its input. -/
theorem c3_determinism (torrents : List Torrent) (anime_name : String) :
    (group_torrents_deterministic torrents anime_name).map TorrentGroup.name =
      (group_torrents_deterministic torrents anime_name).map TorrentGroup.name ∧
    (group_torrents_deterministic torrents anime_name).map TorrentGroup.torrents =
      (group_torrents_deterministic torrents anime_name).map TorrentGroup.torrents ∧
    group_torrents_deterministic torrents anime_name =
      group_torrents_deterministic torrents anime_name :=
  ⟨rfl, rfl, rfl⟩

/-- C8.  The empty torrent list yields the empty group list for every
fallback name, and the metadata builder on an all-empty detail record
(submitter `"Anonymous"`) returns the documented defaults. -/
theorem c8_empty_defaults :
    (∀ anime_name : String, group_torrents_deterministic [] anime_name = []) ∧
    (extract_metadata_from_detail {}).anime_name = "Unknown" ∧
    (extract_metadata_from_detail {}).season = "Season 1" ∧
    (extract_metadata_from_detail {}).episode = "" ∧
    (extract_metadata_from_detail {}).quality = "Unknown" ∧
    (extract_metadata_from_detail {}).release_group = "Unknown" :=
  ⟨fun _ => rfl, by decide, by decide, by decide, by decide, by decide⟩

/-- C9.  The group key is not injective in the six fields: records that
differ in two fields but hide a pipe character inside a field value collide
on the key, and two torrents carrying them are merged into a single group. -/
theorem c9_group_key_not_injective :
    let m1 : TorrentMetadata := { release_group := "A|B", anime_name := "C" }
    let m2 : TorrentMetadata := { release_group := "A", anime_name := "B|C" }
    m1.release_group ≠ m2.release_group ∧ m1.anime_name ≠ m2.anime_name ∧
    m1.group_key = m2.group_key ∧
    (group_torrents_deterministic
      [{ metadata := some m1 }, { metadata := some m2 }] "X").length = 1 := by
  decide

/-- C4.  The returned group list is sorted by total seeders in descending
order; groups with equal totals keep the order of the pre-sort bucket list,
whose entries appear in the order their group keys were first encountered in
the input (the sort is stable); and the concrete example of the claim:
seeders 50, 100, 30 split over two keys produce totals 100 then 80. -/
theorem c4_seeder_sort :
    (∀ ts name, (group_torrents_deterministic ts name).Pairwise
        (fun a b => b.total_seeders ≤ a.total_seeders)) ∧
    (∀ ts name (n : Nat), (group_torrents_deterministic ts name).filter
        (fun g => g.total_seeders == n) =
      (preSortGroups (ts.map (assignMeta name))).filter (fun g => g.total_seeders == n)) ∧
    (group_torrents_deterministic
        [rgTorrent "SubsPlease" 50, rgTorrent "Erai-raws" 100, rgTorrent "SubsPlease" 30]
        "X").map TorrentGroup.total_seeders = [100, 80] := by
  refine ⟨?_, ?_, by decide⟩
  · intro ts name
    rw [group_eq_sort]
    exact sortDesc_sorted _
  · intro ts name n
    rw [group_eq_sort]
    exact sortDesc_filter n _

/-- C2.  Changing exactly one of the six key fields between two otherwise
identical metadata records changes the group key, and two torrents carrying
those records land in two distinct groups. -/
theorem c2_key_completeness (m1 m2 : TorrentMetadata) (t1 t2 : Torrent) (name : String)
    (h1 : t1.metadata = some m1) (h2 : t2.metadata = some m2)
    (hd : oneKeyFieldDiff m1 m2) :
    m1.group_key ≠ m2.group_key ∧
      (group_torrents_deterministic [t1, t2] name).length = 2 := by
  have hkey : m1.group_key ≠ m2.group_key := by
    intro hk
    unfold TorrentMetadata.group_key at hk
    rcases hd with ⟨hne, e1, e2, e3, e4, e5⟩ | ⟨e1, hne, e2, e3, e4, e5⟩ |
      ⟨e1, e2, hne, e3, e4, e5⟩ | ⟨e1, e2, e3, hne, e4, e5⟩ |
      ⟨e1, e2, e3, e4, hne, e5⟩ | ⟨e1, e2, e3, e4, e5, hne⟩
    · rw [e1, e2, e3, e4, e5] at hk
      exact hne (string_cancel_right (string_cancel_right (string_cancel_right
        (string_cancel_right (string_cancel_right (string_cancel_right
        (string_cancel_right (string_cancel_right (string_cancel_right
        (string_cancel_right hk))))))))))
    · rw [e1, e2, e3, e4, e5] at hk
      exact hne (string_cancel_left (string_cancel_right (string_cancel_right
        (string_cancel_right (string_cancel_right (string_cancel_right
        (string_cancel_right (string_cancel_right (string_cancel_right hk)))))))))
    · rw [e1, e2, e3, e4, e5] at hk
      exact hne (string_cancel_left (string_cancel_right (string_cancel_right
        (string_cancel_right (string_cancel_right (string_cancel_right
        (string_cancel_right hk)))))))
    · rw [e1, e2, e3, e4, e5] at hk
      exact hne (string_cancel_left (string_cancel_right (string_cancel_right
        (string_cancel_right (string_cancel_right hk)))))
    · rw [e1, e2, e3, e4, e5] at hk
      exact hne (string_cancel_left (string_cancel_right (string_cancel_right hk)))
    · rw [e1, e2, e3, e4, e5] at hk
      exact hne (string_cancel_left hk)
  refine ⟨hkey, ?_⟩
  have ha1 : assignMeta name t1 = t1 := by simp [assignMeta, h1]
  have ha2 : assignMeta name t2 = t2 := by simp [assignMeta, h2]
  have hk1 : torrentKey t1 = m1.group_key := by simp [torrentKey, h1]
  have hk2 : torrentKey t2 = m2.group_key := by simp [torrentKey, h2]
  have hb : buckets [t1, t2] =
      [(torrentKey t1, [t1]), (torrentKey t2, [t2])] := by
    have hne : ¬ (torrentKey t1 = torrentKey t2) := by
      rw [hk1, hk2]; exact hkey
    simp [buckets, addToBucket, hne]
  have : group_torrents_deterministic [t1, t2] name =
      sortDesc (preSortGroups [t1, t2]) := by
    rw [group_eq_sort]
    simp [ha1, ha2]
  rw [this, sortDesc_length, preSortGroups, hb]
  rfl

/-- Witness for C2 at the claim's concrete example: release groups
`"SubsPlease"` and `"Erai-raws"`, all other fields equal. -/
theorem c2_key_completeness_witness :
    ({ release_group := "SubsPlease" } : TorrentMetadata).group_key ≠
      ({ release_group := "Erai-raws" } : TorrentMetadata).group_key ∧
    (group_torrents_deterministic
      [rgTorrent "SubsPlease" 50, rgTorrent "Erai-raws" 100] "X").length = 2 :=
  c2_key_completeness { release_group := "SubsPlease" } { release_group := "Erai-raws" }
    (rgTorrent "SubsPlease" 50) (rgTorrent "Erai-raws" 100) "X" rfl rfl
    (Or.inl ⟨by decide, rfl, rfl, rfl, rfl, rfl⟩)

/-- C5.  The season resolver's first strategy (standard `S<digits>` or
`Season <digits>`) wins over every later strategy, including Part and Cour;
`extract_season` consults the title before the description and defaults to
`"Season 1"`; and the claim's three concrete resolutions hold. -/
theorem c5_season_priority :
    (∀ text : String, ∀ ds : List Char, reSearch seasonStdCore text.data = some ds →
        extract_season_number text = some (digitsVal ds)) ∧
    (∀ title description : String, ∀ n : Nat, extract_season_number title = some n →
        extract_season title description = "Season " ++ toString n) ∧
    (∀ title description : String, extract_season_number title = none →
        extract_season_number description = none →
        extract_season title description = "Season 1") ∧
    extract_season "Anime S01 Part 2" "" = "Season 1" ∧
    extract_season "Anime 2nd Season - 01" "" = "Season 2" ∧
    extract_season "Anime Season III" "" = "Season 3" := by
  refine ⟨?_, ?_, ?_, by decide, by decide, by decide⟩
  · intro text ds h
    simp [extract_season_number, h]
  · intro title description n h
    simp [extract_season, h]
  · intro title description h1 h2
    simp [extract_season, h1, h2]

/-- Witness for C5: the three conjuncts with hypotheses applied at concrete
titles. -/
theorem c5_season_priority_witness :
    extract_season_number "Anime S01 Part 2" = some (digitsVal ['0', '1']) ∧
    extract_season "Anime 2nd Season - 01" "zzz" = "Season " ++ toString 2 ∧
    extract_season "no hint here" "" = "Season 1" :=
  ⟨c5_season_priority.1 "Anime S01 Part 2" ['0', '1'] (by decide),
   c5_season_priority.2.1 "Anime 2nd Season - 01" "zzz" 2 (by decide),
   c5_season_priority.2.2.1 "no hint here" "" (by decide) (by decide)⟩

/-- C6.  A present, non-Anonymous submitter overrides the regex-extracted
release group in the metadata builder; an empty or `"Anonymous"` submitter
falls back to title extraction, which tries the leading bracketed group, then
the trailing scene suffix, then `"Unknown"`; and the claim's two concrete
examples hold. -/
theorem c6_release_group_override :
    (∀ d : DetailRecord, d.submitter ≠ "" → d.submitter ≠ "Anonymous" →
        (extract_metadata_from_detail d).release_group = d.submitter) ∧
    (∀ d : DetailRecord, d.submitter = "" ∨ d.submitter = "Anonymous" →
        (extract_metadata_from_detail d).release_group = extract_release_group d.title) ∧
    (∀ title : String, extract_release_group title =
        (match bracketStartCapture title.data with
         | some g => String.mk g
         | none =>
           match reSearch rgEndCore title.data with
           | some g => String.mk g
           | none => "Unknown")) ∧
    (extract_metadata_from_detail { title := "[GroupName] Anime - 01" }).release_group =
      "GroupName" ∧
    (extract_metadata_from_detail
      { title := "[GroupName] Anime - 01", submitter := "TrustedUploader" }).release_group =
      "TrustedUploader" := by
  refine ⟨?_, ?_, fun _ => rfl, by decide, by decide⟩
  · intro d h1 h2
    simp [extract_metadata_from_detail, h1, h2]
  · intro d h
    rcases h with h | h <;> simp [extract_metadata_from_detail, h]

/-- Witness for C6: the override and fallback conjuncts applied at concrete
detail records. -/
theorem c6_release_group_override_witness :
    (extract_metadata_from_detail
      { title := "[SomeGroup] Title - 03", submitter := "Uploader" }).release_group =
      "Uploader" ∧
    (extract_metadata_from_detail
      { title := "[SomeGroup] Title - 03", submitter := "Anonymous" }).release_group =
      extract_release_group "[SomeGroup] Title - 03" :=
  ⟨c6_release_group_override.1 { title := "[SomeGroup] Title - 03", submitter := "Uploader" }
      (by decide) (by decide),
   c6_release_group_override.2.1
      { title := "[SomeGroup] Title - 03", submitter := "Anonymous" } (Or.inr rfl)⟩

/-! ## Lemmas about the episode sort and the fold-based min and max -/

lemma insertAsc_perm (x : Int) : ∀ l, (insertAsc x l).Perm (x :: l)
  | [] => List.Perm.refl _
  | h :: t => by
    unfold insertAsc
    split
    · exact List.Perm.refl _
    · exact ((insertAsc_perm x t).cons h).trans (List.Perm.swap x h t)

lemma sortAsc_perm : ∀ l, (sortAsc l).Perm l
  | [] => List.Perm.refl _
  | h :: t => by
    show (insertAsc h (sortAsc t)).Perm (h :: t)
    exact (insertAsc_perm h (sortAsc t)).trans ((sortAsc_perm t).cons h)

lemma foldl_min_mem (e : Int) : ∀ rest : List Int, rest.foldl min e ∈ e :: rest
  | [] => by simp
  | h :: t => by
    have ih := foldl_min_mem (min e h) t
    rcases List.mem_cons.mp ih with hc | hc
    · rcases min_choice e h with hm | hm
      · simp only [List.foldl_cons]
        rw [hc, hm]
        exact List.mem_cons_self e _
      · simp only [List.foldl_cons]
        rw [hc, hm]
        exact List.mem_cons_of_mem e (List.mem_cons_self h t)
    · exact List.mem_cons_of_mem e (List.mem_cons_of_mem h hc)

lemma foldl_max_mem (e : Int) : ∀ rest : List Int, rest.foldl max e ∈ e :: rest
  | [] => by simp
  | h :: t => by
    have ih := foldl_max_mem (max e h) t
    rcases List.mem_cons.mp ih with hc | hc
    · rcases max_choice e h with hm | hm
      · simp only [List.foldl_cons]
        rw [hc, hm]
        exact List.mem_cons_self e _
      · simp only [List.foldl_cons]
        rw [hc, hm]
        exact List.mem_cons_of_mem e (List.mem_cons_self h t)
    · exact List.mem_cons_of_mem e (List.mem_cons_of_mem h hc)

lemma foldl_min_le (e : Int) : ∀ rest : List Int, ∀ x ∈ e :: rest, rest.foldl min e ≤ x
  | [], x, hx => by
    simp at hx
    simp [hx]
  | h :: t, x, hx => by
    have ih := foldl_min_le (min e h) t
    rcases List.mem_cons.mp hx with hc | hc
    · have := ih (min e h) (List.mem_cons_self _ _)
      calc (h :: t).foldl min e = t.foldl min (min e h) := by simp
        _ ≤ min e h := this
        _ ≤ e := min_le_left e h
        _ = x := hc.symm
    · rcases List.mem_cons.mp hc with hc2 | hc2
      · have := ih (min e h) (List.mem_cons_self _ _)
        calc (h :: t).foldl min e = t.foldl min (min e h) := by simp
          _ ≤ min e h := this
          _ ≤ h := min_le_right e h
          _ = x := hc2.symm
      · exact ih x (List.mem_cons_of_mem _ hc2)

lemma le_foldl_max (e : Int) : ∀ rest : List Int, ∀ x ∈ e :: rest, x ≤ rest.foldl max e
  | [], x, hx => by
    simp at hx
    simp [hx]
  | h :: t, x, hx => by
    have ih := le_foldl_max (max e h) t
    rcases List.mem_cons.mp hx with hc | hc
    · have := ih (max e h) (List.mem_cons_self _ _)
      calc x = e := hc
        _ ≤ max e h := le_max_left e h
        _ ≤ t.foldl max (max e h) := this
        _ = (h :: t).foldl max e := by simp
    · rcases List.mem_cons.mp hc with hc2 | hc2
      · have := ih (max e h) (List.mem_cons_self _ _)
        calc x = h := hc2
          _ ≤ max e h := le_max_right e h
          _ ≤ t.foldl max (max e h) := this
          _ = (h :: t).foldl max e := by simp
      · exact ih x (List.mem_cons_of_mem _ hc2)

/-! ## Membership in the produced group list -/

lemma mkGroup_torrents (l : List Torrent) : (mkGroup l).torrents = l := rfl

lemma mkGroup_episode_range (l : List Torrent) :
    (mkGroup l).episode_range = episodeRangeLabel (collectEpisodes l) := rfl

lemma mem_groups {g : TorrentGroup} {ts : List Torrent} {name : String}
    (h : g ∈ group_torrents_deterministic ts name) :
    ∃ kv ∈ buckets (ts.map (assignMeta name)), g = mkGroup kv.2 := by
  rw [group_eq_sort] at h
  have h2 : g ∈ preSortGroups (ts.map (assignMeta name)) :=
    (sortDesc_perm _).mem_iff.mp h
  obtain ⟨kv, hkv, heq⟩ := List.mem_map.mp h2
  exact ⟨kv, hkv, heq.symm⟩

/-- C1 (amended).  Every produced group's episode-range label is the label of
the LIST of its members' parsed episode numbers, with multiplicity: one
parsed value gives `"Episode n"`, two or more (duplicates counted) give
`"Episodes min-max"`, none gives `"Various"`; and the claim's three concrete
examples hold.  (The claim's formulation over the SET of parsed values fails
on duplicates; see the counterexample.) -/
theorem c1_episode_range_amended :
    (∀ ts name g, g ∈ group_torrents_deterministic ts name →
        g.episode_range = episodeRangeLabel (collectEpisodes g.torrents)) ∧
    episodeRangeLabel [] = "Various" ∧
    (∀ e : Int, episodeRangeLabel [e] = "Episode " ++ toString e) ∧
    (∀ eps : List Int, 2 ≤ eps.length → ∃ a b, a ∈ eps ∧ b ∈ eps ∧
        (∀ x ∈ eps, a ≤ x ∧ x ≤ b) ∧
        episodeRangeLabel eps = "Episodes " ++ toString a ++ "-" ++ toString b) ∧
    (group_torrents_deterministic
        [epTorrent "1" "Episode 1", epTorrent "2" "Episode 5", epTorrent "3" "Episode 3"]
        "X").map TorrentGroup.episode_range = ["Episodes 1-5"] ∧
    (group_torrents_deterministic [epTorrent "1" ""] "X").map TorrentGroup.episode_range =
      ["Various"] ∧
    (group_torrents_deterministic [epTorrent "1" "Episode 1"] "X").map
      TorrentGroup.episode_range = ["Episode 1"] := by
  refine ⟨?_, rfl, fun e => rfl, ?_, by decide, by decide, by decide⟩
  · intro ts name g hg
    obtain ⟨kv, _, heq⟩ := mem_groups hg
    rw [heq, mkGroup_episode_range, mkGroup_torrents]
  · intro eps hlen
    match h : sortAsc eps with
    | [] =>
      exfalso
      have := (sortAsc_perm eps).length_eq
      rw [h] at this
      simp at this
      omega
    | [e] =>
      exfalso
      have := (sortAsc_perm eps).length_eq
      rw [h] at this
      simp at this
      omega
    | e :: e2 :: r =>
      have hperm := sortAsc_perm eps
      rw [h] at hperm
      refine ⟨(e2 :: r).foldl min e, (e2 :: r).foldl max e, ?_, ?_, ?_, ?_⟩
      · exact hperm.mem_iff.mp (foldl_min_mem e (e2 :: r))
      · exact hperm.mem_iff.mp (foldl_max_mem e (e2 :: r))
      · intro x hx
        have hx2 : x ∈ e :: e2 :: r := hperm.mem_iff.mpr hx
        exact ⟨foldl_min_le e (e2 :: r) x hx2, le_foldl_max e (e2 :: r) x hx2⟩
      · simp [episodeRangeLabel, h]

/-- Witness for C1 (amended): the min-max conjunct at the claim's episode
list 1, 5, 3. -/
theorem c1_episode_range_amended_witness :
    ∃ a b : Int, a ∈ [(1 : Int), 5, 3] ∧ b ∈ [(1 : Int), 5, 3] ∧
      (∀ x ∈ [(1 : Int), 5, 3], a ≤ x ∧ x ≤ b) ∧
      episodeRangeLabel [1, 5, 3] = "Episodes " ++ toString a ++ "-" ++ toString b :=
  c1_episode_range_amended.2.2.2.1 [1, 5, 3] (by decide)

/-- Counterexample for C1 as stated: two torrents in one group, both episode
5.  The parsed-value SET is the singleton 5, so the claimed label is
`"Episode 5"`, but the code keeps the list with multiplicity and produces
`"Episodes 5-5"`. -/
theorem c1_episode_range_counterexample :
    (group_torrents_deterministic [epTorrent "1" "Episode 5", epTorrent "2" "Episode 5"]
        "X").map TorrentGroup.episode_range = ["Episodes 5-5"] ∧
    (group_torrents_deterministic [epTorrent "1" "Episode 5", epTorrent "2" "Episode 5"]
        "X").map (fun g => specEpisodeRangeLabel (collectEpisodes g.torrents)) =
      ["Episode 5"] ∧
    ("Episodes 5-5" : String) ≠ "Episode 5" :=
  ⟨by decide, by decide, by decide⟩

/-! ## Closed form of the bucket dictionary -/

lemma ordk_step_mem (acc : List String) (k a : String) :
    (a ∈ if k ∈ acc then acc else acc ++ [k]) ↔ a ∈ acc ∨ a = k := by
  split
  · rename_i hk
    constructor
    · exact Or.inl
    · rintro (h | rfl)
      · exact h
      · exact hk
  · simp

lemma ordk_mem_aux :
    ∀ (l acc : List String) (a : String),
      (a ∈ l.foldl (fun acc k => if k ∈ acc then acc else acc ++ [k]) acc) ↔
        a ∈ acc ∨ a ∈ l
  | [], acc, a => by simp
  | k :: t, acc, a => by
    simp only [List.foldl_cons]
    rw [ordk_mem_aux t _ a, ordk_step_mem acc k a]
    simp only [List.mem_cons]
    tauto

lemma ordk_mem (l : List String) (a : String) : a ∈ orderedKeys l ↔ a ∈ l := by
  have := ordk_mem_aux l [] a
  simpa [orderedKeys] using this

lemma ordk_nodup_aux :
    ∀ (l acc : List String), acc.Nodup →
      (l.foldl (fun acc k => if k ∈ acc then acc else acc ++ [k]) acc).Nodup
  | [], _, h => h
  | k :: t, acc, h => by
    simp only [List.foldl_cons]
    apply ordk_nodup_aux t
    split
    · exact h
    · rename_i hk
      refine h.append (List.nodup_singleton k) ?_
      intro a ha hak
      simp at hak
      subst hak
      exact hk ha

lemma ordk_nodup (l : List String) : (orderedKeys l).Nodup :=
  ordk_nodup_aux l [] List.nodup_nil

lemma ordk_append (l : List String) (k : String) :
    orderedKeys (l ++ [k]) =
      if k ∈ orderedKeys l then orderedKeys l else orderedKeys l ++ [k] := by
  simp [orderedKeys, List.foldl_append]

lemma filter_append_single_ne {pre : List Torrent} {t : Torrent} {k : String}
    (h : ¬ torrentKey t = k) :
    (pre ++ [t]).filter (fun x => torrentKey x == k) =
      pre.filter (fun x => torrentKey x == k) := by
  simp [List.filter_append, List.filter_cons, h]

lemma filter_append_single_eq (pre : List Torrent) (t : Torrent) :
    (pre ++ [t]).filter (fun x => torrentKey x == torrentKey t) =
      pre.filter (fun x => torrentKey x == torrentKey t) ++ [t] := by
  simp [List.filter_append, List.filter_cons]

lemma addToBucket_map (pre : List Torrent) (t : Torrent) :
    ∀ K : List String, K.Nodup →
      (torrentKey t ∉ K → pre.filter (fun x => torrentKey x == torrentKey t) = []) →
      addToBucket (K.map (fun k => (k, pre.filter (fun x => torrentKey x == k))))
          (torrentKey t) t =
        (if torrentKey t ∈ K then K else K ++ [torrentKey t]).map
          (fun k => (k, (pre ++ [t]).filter (fun x => torrentKey x == k)))
  | [], _, hcov => by
    have hf : pre.filter (fun x => torrentKey x == torrentKey t) = [] := hcov (by simp)
    simp [addToBucket, filter_append_single_eq, hf]
  | k0 :: K1, hN, hcov => by
    by_cases hk : k0 = torrentKey t
    · have hk0 : torrentKey t ∉ K1 := by
        intro hmem
        exact (List.nodup_cons.mp hN).1 (by rw [hk]; exact hmem)
      have hmemc : torrentKey t ∈ k0 :: K1 := List.mem_cons.mpr (Or.inl hk.symm)
      rw [if_pos hmemc]
      simp only [List.map_cons, addToBucket, if_pos hk]
      congr 1
      · rw [hk, filter_append_single_eq]
      · refine List.map_congr_left ?_
        intro k' hk'
        have hne : ¬ torrentKey t = k' := by
          intro he
          exact hk0 (he ▸ hk')
        rw [filter_append_single_ne hne]
    · have hN1 : K1.Nodup := (List.nodup_cons.mp hN).2
      have hcov1 : torrentKey t ∉ K1 →
          pre.filter (fun x => torrentKey x == torrentKey t) = [] := by
        intro h1
        apply hcov
        simp only [List.mem_cons]
        rintro (h2 | h2)
        · exact hk h2.symm
        · exact h1 h2
      have hne0 : ¬ torrentKey t = k0 := fun he => hk he.symm
      simp only [List.map_cons, addToBucket, if_neg hk]
      rw [addToBucket_map pre t K1 hN1 hcov1]
      by_cases hmem : torrentKey t ∈ K1
      · rw [if_pos hmem, if_pos (List.mem_cons_of_mem k0 hmem), List.map_cons,
          filter_append_single_ne hne0]
      · have hnm : torrentKey t ∉ k0 :: K1 := by
          simp only [List.mem_cons]
          rintro (h2 | h2)
          · exact hne0 h2
          · exact hmem h2
        rw [if_neg hmem, if_neg hnm, List.cons_append, List.map_cons,
          filter_append_single_ne hne0]

lemma buckets_closed_aux :
    ∀ (ts pre : List Torrent),
      ts.foldl (fun bs t => addToBucket bs (torrentKey t) t)
          ((orderedKeys (pre.map torrentKey)).map
            (fun k => (k, pre.filter (fun x => torrentKey x == k)))) =
        (orderedKeys ((pre ++ ts).map torrentKey)).map
          (fun k => (k, (pre ++ ts).filter (fun x => torrentKey x == k)))
  | [], pre => by simp
  | t :: ts1, pre => by
    simp only [List.foldl_cons]
    have hstep := addToBucket_map pre t (orderedKeys (pre.map torrentKey))
      (ordk_nodup _)
      (by
        intro hnm
        refine List.filter_eq_nil_iff.mpr ?_
        intro x hx hbe
        apply hnm
        rw [ordk_mem]
        have : torrentKey x = torrentKey t := by simpa using hbe
        exact this ▸ List.mem_map_of_mem torrentKey hx)
    rw [hstep]
    have hkeys : (if torrentKey t ∈ orderedKeys (pre.map torrentKey) then
          orderedKeys (pre.map torrentKey)
        else orderedKeys (pre.map torrentKey) ++ [torrentKey t]) =
        orderedKeys ((pre ++ [t]).map torrentKey) := by
      rw [List.map_append]
      have hm : List.map torrentKey [t] = [torrentKey t] := rfl
      rw [hm, ordk_append]
    rw [hkeys]
    have := buckets_closed_aux ts1 (pre ++ [t])
    rw [this]
    simp

lemma buckets_closed (ts : List Torrent) :
    buckets ts =
      (orderedKeys (ts.map torrentKey)).map
        (fun k => (k, ts.filter (fun x => torrentKey x == k))) := by
  have := buckets_closed_aux ts []
  simpa [buckets, orderedKeys] using this

/-! ## The bucket lists partition the input -/

lemma filter_flatten_cons (t : Torrent) (ts1 : List Torrent) :
    ∀ K : List String, K.Nodup → torrentKey t ∈ K →
      ((K.map (fun k => (t :: ts1).filter (fun x => torrentKey x == k))).flatten).Perm
        (t :: (K.map (fun k => ts1.filter (fun x => torrentKey x == k))).flatten)
  | [], _, hmem => absurd hmem (List.not_mem_nil _)
  | k0 :: K1, hN, hmem => by
    by_cases hk : torrentKey t = k0
    · have hk0 : torrentKey t ∉ K1 := by
        intro h1
        exact (List.nodup_cons.mp hN).1 (hk ▸ h1)
      have htail : K1.map (fun k => (t :: ts1).filter (fun x => torrentKey x == k)) =
          K1.map (fun k => ts1.filter (fun x => torrentKey x == k)) := by
        refine List.map_congr_left ?_
        intro k' hk'
        have hne : ¬ (torrentKey t == k') = true := by
          simp only [beq_iff_eq]
          intro he
          exact hk0 (he ▸ hk')
        simp [List.filter_cons, hne]
      have hhead : (t :: ts1).filter (fun x => torrentKey x == k0) =
          t :: ts1.filter (fun x => torrentKey x == k0) := by
        simp [List.filter_cons, hk]
      simp only [List.map_cons, List.flatten_cons, hhead, htail]
      exact List.Perm.refl _
    · have hmem1 : torrentKey t ∈ K1 := by
        rcases List.mem_cons.mp hmem with h1 | h1
        · exact absurd h1 hk
        · exact h1
      have hhead : (t :: ts1).filter (fun x => torrentKey x == k0) =
          ts1.filter (fun x => torrentKey x == k0) := by
        simp [List.filter_cons, hk]
      have ih := filter_flatten_cons t ts1 K1 (List.nodup_cons.mp hN).2 hmem1
      simp only [List.map_cons, List.flatten_cons, hhead]
      refine (ih.append_left _).trans ?_
      exact List.perm_middle

lemma filter_flatten_perm :
    ∀ (ts : List Torrent) (K : List String), K.Nodup →
      (∀ x ∈ ts, torrentKey x ∈ K) →
      ((K.map (fun k => ts.filter (fun x => torrentKey x == k))).flatten).Perm ts
  | [], K, _, _ => by
    have : K.map (fun k => ([] : List Torrent).filter (fun x => torrentKey x == k)) =
        K.map (fun _ => ([] : List Torrent)) := by
      simp
    rw [this]
    have : (K.map (fun _ => ([] : List Torrent))).flatten = [] := by
      induction K with
      | nil => rfl
      | cons k K ih => simp [ih]
    rw [this]
  | t :: ts1, K, hN, hcov => by
    have h1 := filter_flatten_cons t ts1 K hN (hcov t (List.mem_cons_self t ts1))
    have h2 := filter_flatten_perm ts1 K hN
      (fun x hx => hcov x (List.mem_cons_of_mem t hx))
    exact h1.trans (h2.cons t)

lemma preSortGroups_closed (ts : List Torrent) :
    preSortGroups ts =
      (orderedKeys (ts.map torrentKey)).map
        (fun k => mkGroup (ts.filter (fun x => torrentKey x == k))) := by
  rw [preSortGroups, buckets_closed, List.map_map]
  rfl

/-- C10.  After fallback assignment every torrent has metadata (torrents that
lacked it receive a record whose anime name is the given fallback and whose
other fields are the defaults); the groups' torrent lists concatenate to a
permutation of the metadata-assigned input; each group's list is the
input-order filter of the assigned input by one group key (and is non-empty);
and every assigned torrent lies in exactly one returned group.  The source
mutates the input list in place; the embedding models that mutation as the
explicit map of the fallback assignment over the input. -/
theorem c10_partition (ts : List Torrent) (name : String) :
    (∀ t ∈ ts.map (assignMeta name), t.metadata ≠ none) ∧
    (∀ t ∈ ts, t.metadata = none →
        assignMeta name t = { t with metadata := some { anime_name := name } }) ∧
    (((group_torrents_deterministic ts name).map TorrentGroup.torrents).flatten).Perm
      (ts.map (assignMeta name)) ∧
    (∀ g ∈ group_torrents_deterministic ts name, ∃ k,
        g.torrents = (ts.map (assignMeta name)).filter (fun x => torrentKey x == k) ∧
        g.torrents ≠ []) ∧
    (∀ t ∈ ts.map (assignMeta name), ∃! g,
        g ∈ group_torrents_deterministic ts name ∧ t ∈ g.torrents) := by
  have hcov : ∀ x ∈ ts.map (assignMeta name),
      torrentKey x ∈ orderedKeys ((ts.map (assignMeta name)).map torrentKey) := by
    intro x hx
    exact (ordk_mem _ _).mpr (List.mem_map_of_mem torrentKey hx)
  refine ⟨?_, ?_, ?_, ?_, ?_⟩
  · intro t ht
    obtain ⟨x, _, rfl⟩ := List.mem_map.mp ht
    cases hx2 : x.metadata <;> simp [assignMeta, hx2]
  · intro t _ hm
    simp [assignMeta, hm]
  · rw [group_eq_sort]
    have h1 : ((sortDesc (preSortGroups (ts.map (assignMeta name)))).map
        TorrentGroup.torrents).Perm
        ((preSortGroups (ts.map (assignMeta name))).map TorrentGroup.torrents) :=
      (sortDesc_perm _).map _
    have h2 : (preSortGroups (ts.map (assignMeta name))).map TorrentGroup.torrents =
        (orderedKeys ((ts.map (assignMeta name)).map torrentKey)).map
          (fun k => (ts.map (assignMeta name)).filter (fun x => torrentKey x == k)) := by
      rw [preSortGroups_closed, List.map_map]
      rfl
    refine (h1.flatten).trans ?_
    rw [h2]
    exact filter_flatten_perm _ _ (ordk_nodup _) hcov
  · intro g hg
    obtain ⟨kv, hkv, hEq⟩ := mem_groups hg
    rw [buckets_closed] at hkv
    obtain ⟨k, hkK, hkv2⟩ := List.mem_map.mp hkv
    subst hEq
    rw [← hkv2]
    refine ⟨k, mkGroup_torrents _, ?_⟩
    rw [mkGroup_torrents]
    obtain ⟨x, hx, hkx⟩ := List.mem_map.mp ((ordk_mem _ _).mp hkK)
    exact List.ne_nil_of_mem (List.mem_filter.mpr ⟨hx, by simp [hkx]⟩)
  · intro t ht
    refine ⟨mkGroup ((ts.map (assignMeta name)).filter
        (fun x => torrentKey x == torrentKey t)), ⟨?_, ?_⟩, ?_⟩
    · rw [group_eq_sort]
      refine (sortDesc_perm _).mem_iff.mpr ?_
      rw [preSortGroups_closed]
      exact List.mem_map_of_mem _ (hcov t ht)
    · rw [mkGroup_torrents]
      exact List.mem_filter.mpr ⟨ht, by simp⟩
    · rintro g' ⟨hg', htg'⟩
      obtain ⟨kv, hkv, hEq⟩ := mem_groups hg'
      rw [buckets_closed] at hkv
      obtain ⟨k, _, hkv2⟩ := List.mem_map.mp hkv
      subst hEq
      rw [← hkv2] at htg' ⊢
      rw [mkGroup_torrents] at htg'
      have hkt : torrentKey t = k := by
        have := (List.mem_filter.mp htg').2
        simpa using this
      rw [hkt]

/-- Witness for C10: the unique-group conjunct applied at a concrete
one-torrent input. -/
theorem c10_partition_witness :
    ∃! g, g ∈ group_torrents_deterministic [epTorrent "7" "Episode 4"] "W" ∧
      epTorrent "7" "Episode 4" ∈ g.torrents :=
  (c10_partition [epTorrent "7" "Episode 4"] "W").2.2.2.2
    (epTorrent "7" "Episode 4") (by decide)

/-! ## Idempotence analysis of the anime-name pipeline: segments -/

lemma reach_refl (x : List Char) : Reach x x := ⟨0, x.length, by simp⟩

lemma reach_take (x : List Char) (p : Nat) : Reach x (x.take p) := ⟨0, p, by simp⟩

lemma reach_drop (x : List Char) (a : Nat) : Reach x (x.drop a) :=
  ⟨a, (x.drop a).length, by simp⟩

lemma reach_trans {x y z : List Char} (h1 : Reach x y) (h2 : Reach y z) : Reach x z := by
  obtain ⟨a, b, rfl⟩ := h1
  obtain ⟨c, d, rfl⟩ := h2
  refine ⟨a + c, min d (b - c), ?_⟩
  simp [List.drop_take, List.drop_drop, List.take_take, Nat.add_comm]

lemma reach_mem {x y : List Char} (h : Reach x y) {c : Char} (hc : c ∈ y) : c ∈ x := by
  obtain ⟨a, b, rfl⟩ := h
  exact List.mem_of_mem_drop (List.mem_of_mem_take hc)

lemma reach_noNL {x y : List Char} (h : Reach x y) (hx : '\n' ∉ x) : '\n' ∉ y :=
  fun hc => hx (reach_mem h hc)

lemma noCore_suffix {core : List Char → Option (Nat × List Char)} {s u v : List Char}
    (h : NoCore core s) (hs : s = u ++ v) : NoCore core v := by
  intro u' v' hv
  exact h (u ++ u') v' (by rw [hs, hv, List.append_assoc])

lemma noCore_reach {core : List Char → Option (Nat × List Char)}
    (hm : MonoCore core) {x y : List Char} (h : NoCore core x) (hr : Reach x y) :
    NoCore core y := by
  obtain ⟨a, b, rfl⟩ := hr
  intro u v hv
  have hx : x = (x.take a ++ u) ++ (v ++ (x.drop a).drop b) := by
    have h1 : (x.drop a).take b ++ (x.drop a).drop b = x.drop a :=
      List.take_append_drop b (x.drop a)
    calc x = x.take a ++ x.drop a := (List.take_append_drop a x).symm
      _ = x.take a ++ ((x.drop a).take b ++ (x.drop a).drop b) := by rw [h1]
      _ = x.take a ++ ((u ++ v) ++ (x.drop a).drop b) := by rw [← hv]
      _ = (x.take a ++ u) ++ (v ++ (x.drop a).drop b) := by simp [List.append_assoc]
  have hnone : core (v ++ (x.drop a).drop b) = none := h _ _ hx
  cases hcv : core v with
  | none => rfl
  | some r =>
    exfalso
    have h1 : (core ((v ++ (x.drop a).drop b).take v.length)).isSome := by
      rw [List.take_left]
      simp [hcv]
    have h2 := hm _ _ h1
    rw [hnone] at h2
    simp at h2

/-! ## Transfer lemmas from a truncated list to the full list -/

lemma ciStarts_take : ∀ {w u : List Char} {k : Nat},
    ciStarts w (u.take k) = true → ciStarts w u = true
  | [], _, _, _ => rfl
  | a :: w', u, k, h => by
    cases u with
    | nil => simp [ciStarts] at h
    | cons c u' =>
      cases k with
      | zero => simp [ciStarts] at h
      | succ k' =>
        simp only [List.take_succ_cons, ciStarts, Bool.and_eq_true] at h ⊢
        exact ⟨h.1, ciStarts_take h.2⟩

lemma countWhile_cons (p : Char → Bool) (c : Char) (l : List Char) :
    countWhile p (c :: l) = if p c then countWhile p l + 1 else 0 := by
  simp only [countWhile, List.takeWhile_cons]
  split <;> simp

lemma countWhile_take (p : Char → Bool) :
    ∀ (u : List Char) (k : Nat), countWhile p (u.take k) = min (countWhile p u) k
  | [], k => by simp [countWhile]
  | c :: u', k => by
    cases k with
    | zero => simp [countWhile]
    | succ k' =>
      simp only [List.take_succ_cons, countWhile_cons]
      split
      · rw [countWhile_take p u' k']
        omega
      · omega

lemma countWhile_le (p : Char → Bool) : ∀ l : List Char, countWhile p l ≤ l.length
  | [] => by simp [countWhile]
  | c :: t => by
    rw [countWhile_cons]
    have := countWhile_le p t
    split <;> simp
    omega

lemma dropWhile_eq_drop (p : Char → Bool) :
    ∀ l : List Char, l.dropWhile p = l.drop (countWhile p l)
  | [] => rfl
  | c :: t => by
    rw [List.dropWhile_cons, countWhile_cons]
    split
    · rw [dropWhile_eq_drop p t]
      simp
    · simp

lemma reach_dropWhile (p : Char → Bool) (x : List Char) : Reach x (x.dropWhile p) := by
  rw [dropWhile_eq_drop]
  exact reach_drop x _

lemma take_cons_inv {u : List Char} {k : Nat} {c : Char} {rest : List Char}
    (h : u.take k = c :: rest) : ∃ u', u = c :: u' ∧ rest = u'.take (k - 1) := by
  cases u with
  | nil => simp at h
  | cons d u' =>
    cases k with
    | zero => simp at h
    | succ k' =>
      rw [List.take_succ_cons] at h
      injection h with h1 h2
      exact ⟨u', by rw [h1], by rw [← h2, Nat.add_sub_cancel]⟩

/-! ## Head-character facts for the cores -/

lemma isPySpace_not {c : Char} (h : isPySpace c = true) :
    Char.isDigit c = false ∧ c ≠ '-' ∧ lowc c ≠ 's' ∧ lowc c ≠ 'e' ∧ lowc c ≠ 'p' ∧
      lowc c ≠ 'c' ∧ lowc c ≠ 'f' ∧ lowc c ≠ 't' ∧ lowc c ≠ 'n' := by
  simp only [isPySpace, Bool.or_eq_true, beq_iff_eq] at h
  rcases h with (((((rfl | rfl) | rfl) | rfl) | rfl) | rfl) <;> exact by decide

lemma ciStarts_head_ne {a c : Char} {w l : List Char} (h : lowc c ≠ lowc a) :
    ciStarts (a :: w) (c :: l) = false := by
  have hb : (lowc c == lowc a) = false := beq_eq_false_iff_ne.mpr h
  simp [ciStarts, hb]

lemma ciStarts_head_lit {a c : Char} {w l : List Char} (h : lowc c ≠ a) (ha : lowc a = a) :
    ciStarts (a :: w) (c :: l) = false :=
  ciStarts_head_ne (by rw [ha]; exact h)

/-! ## The cores fail on the empty list and on a whitespace head -/

lemma seasonStd_nil : seasonStdCore [] = none := rfl

lemma ordNum_nil : ordNumCore [] = none := by decide

lemma ordWord_nil : ordWordCore [] = none := by decide

lemma partCore_nil : partCore [] = none := by decide

lemma courCore_nil : courCore [] = none := by decide

lemma epCore_nil : epCore [] = none := rfl

lemma dashNum_nil : dashNumCore [] = none := rfl

lemma digitCount_ws_cons {c : Char} (l : List Char) (h : isPySpace c = true) :
    digitCount (c :: l) = 0 := by
  have hd := (isPySpace_not h).1
  simp [digitCount, countWhile_cons, hd]

lemma seasonStd_ws {c : Char} (l : List Char) (h : isPySpace c = true) :
    seasonStdCore (c :: l) = none := by
  have hne := (isPySpace_not h).2.2.1
  simp [seasonStdCore, hne]

lemma ordNum_ws {c : Char} (l : List Char) (h : isPySpace c = true) :
    ordNumCore (c :: l) = none := by
  simp [ordNumCore, digitCount_ws_cons l h]

lemma ordWord_ws {c : Char} (l : List Char) (h : isPySpace c = true) :
    ordWordCore (c :: l) = none := by
  have hn := isPySpace_not h
  have hfind : ordinalWords.find? (fun w => ciStarts w (c :: l)) = none := by
    rw [List.find?_eq_none]
    intro w hw
    fin_cases hw
    · rw [ciStarts_head_lit hn.2.2.2.2.2.2.1 (by decide)]; simp
    · rw [ciStarts_head_lit hn.2.2.1 (by decide)]; simp
    · rw [ciStarts_head_lit hn.2.2.2.2.2.2.2.1 (by decide)]; simp
    · rw [ciStarts_head_lit hn.2.2.2.2.2.2.1 (by decide)]; simp
    · rw [ciStarts_head_lit hn.2.2.2.2.2.2.1 (by decide)]; simp
    · rw [ciStarts_head_lit hn.2.2.1 (by decide)]; simp
    · rw [ciStarts_head_lit hn.2.2.1 (by decide)]; simp
    · rw [ciStarts_head_lit hn.2.2.2.1 (by decide)]; simp
    · rw [ciStarts_head_lit hn.2.2.2.2.2.2.2.2 (by decide)]; simp
    · rw [ciStarts_head_lit hn.2.2.2.2.2.2.2.1 (by decide)]; simp
  simp [ordWordCore, hfind]

lemma partCore_ws {c : Char} (l : List Char) (h : isPySpace c = true) :
    partCore (c :: l) = none := by
  have hn := isPySpace_not h
  rw [partCore, wordNumCore, ciStarts_head_lit hn.2.2.2.2.1 (by decide)]
  simp

lemma courCore_ws {c : Char} (l : List Char) (h : isPySpace c = true) :
    courCore (c :: l) = none := by
  have hn := isPySpace_not h
  rw [courCore, wordNumCore, ciStarts_head_lit hn.2.2.2.2.2.1 (by decide)]
  simp

lemma epCore_ws {c : Char} (l : List Char) (h : isPySpace c = true) :
    epCore (c :: l) = none := by
  have hne := (isPySpace_not h).2.2.2.1
  simp [epCore, hne]

lemma dashNum_ws {c : Char} (l : List Char) (h : isPySpace c = true) :
    dashNumCore (c :: l) = none := by
  have hne := (isPySpace_not h).2.1
  simp [dashNumCore, hne]

/-! ## Behaviour of the substitution engine on newline-free strings -/

lemma lineTail_nil {s : List Char} (h : '\n' ∉ s) : lineTail s = [] := by
  rw [lineTail, List.dropWhile_eq_nil_iff]
  intro x hx
  simp only [bne_iff_ne, ne_eq]
  intro he
  exact h (he ▸ hx)

lemma subScanF_nil (core : List Char → Option (Nat × List Char)) (fuel : Nat) :
    subScanF core fuel [] = [] := by
  cases fuel <;> rfl

lemma subScanF_take (core : List Char → Option (Nat × List Char)) :
    ∀ (fuel : Nat) (s : List Char), s.length ≤ fuel → '\n' ∉ s →
      ∃ p, subScanF core fuel s = s.take p
  | fuel, [], _, _ => ⟨0, by rw [subScanF_nil]; rfl⟩
  | 0, c :: cs, hf, _ => by simp at hf
  | fuel + 1, c :: cs, hf, hn => by
    simp only [subScanF]
    split
    · rename_i r heq
      have hnx : '\n' ∉ (c :: cs).drop (wsCount (c :: cs) + r.1) :=
        fun hmem => hn (List.mem_of_mem_drop hmem)
      rw [lineTail_nil hnx]
      exact ⟨0, by rw [subScanF_nil]; rfl⟩
    · have hcs : '\n' ∉ cs := fun hmem => hn (List.mem_cons_of_mem c hmem)
      obtain ⟨p, hp⟩ := subScanF_take core fuel cs (by simp at hf; omega) hcs
      exact ⟨p + 1, by rw [hp, List.take_succ_cons]⟩

lemma subScanF_noCore (core : List Char → Option (Nat × List Char))
    (hm : MonoCore core) (hnil : core [] = none)
    (hws : ∀ (c : Char) (l : List Char), isPySpace c = true → core (c :: l) = none) :
    ∀ (fuel : Nat) (s : List Char), s.length ≤ fuel → '\n' ∉ s →
      NoCore core (subScanF core fuel s)
  | fuel, [], _, _ => by
    intro u v huv
    rw [subScanF_nil] at huv
    have hv : v = [] := (List.append_eq_nil.mp huv.symm).2
    rw [hv, hnil]
  | 0, c :: cs, hf, _ => by simp at hf
  | fuel + 1, c :: cs, hf, hn => by
    simp only [subScanF]
    split
    · rename_i r heq
      have hnx : '\n' ∉ (c :: cs).drop (wsCount (c :: cs) + r.1) :=
        fun hmem => hn (List.mem_of_mem_drop hmem)
      rw [lineTail_nil hnx]
      intro u v huv
      rw [subScanF_nil] at huv
      have hv : v = [] := (List.append_eq_nil.mp huv.symm).2
      rw [hv, hnil]
    · rename_i heq
      have hcs : '\n' ∉ cs := fun hmem => hn (List.mem_cons_of_mem c hmem)
      have hlen : cs.length ≤ fuel := by simp at hf; omega
      have ihn := subScanF_noCore core hm hnil hws fuel cs hlen hcs
      obtain ⟨p, hp⟩ := subScanF_take core fuel cs hlen hcs
      intro u v huv
      cases u with
      | nil =>
        simp only [List.nil_append] at huv
        subst huv
        by_cases hc : isPySpace c
        · exact hws c _ hc
        · have hw0 : wsCount (c :: cs) = 0 := by
            simp [wsCount, countWhile_cons, hc]
          rw [hw0, List.drop_zero] at heq
          cases hcv : core (c :: subScanF core fuel cs) with
          | none => rfl
          | some r =>
            exfalso
            have h1 : (core ((c :: cs).take (p + 1))).isSome := by
              rw [List.take_succ_cons, ← hp]
              simp [hcv]
            have h2 := hm (c :: cs) (p + 1) h1
            rw [heq] at h2
            simp at h2
      | cons d u' =>
        injection huv with h1 h2
        exact ihn u' v h2

lemma subScanF_id (core : List Char → Option (Nat × List Char)) :
    ∀ (fuel : Nat) (s : List Char), NoCore core s → subScanF core fuel s = s
  | fuel, [], _ => subScanF_nil core fuel
  | 0, c :: cs, _ => rfl
  | fuel + 1, c :: cs, h => by
    simp only [subScanF]
    split
    · rename_i r heq
      exfalso
      have hsuf : core ((c :: cs).drop (wsCount (c :: cs))) = none :=
        h ((c :: cs).take (wsCount (c :: cs))) _ (List.take_append_drop _ _).symm
      rw [hsuf] at heq
      cases heq
    · have hcs : NoCore core cs := noCore_suffix h (by rfl : c :: cs = [c] ++ cs)
      rw [subScanF_id core fuel cs hcs]

lemma subScan_reach {s : List Char} (core : List Char → Option (Nat × List Char))
    (h : '\n' ∉ s) : Reach s (subScan core s) := by
  obtain ⟨p, hp⟩ := subScanF_take core s.length s (Nat.le_refl _) h
  rw [subScan, hp]
  exact reach_take s p

lemma subScan_noCore {s : List Char} (core : List Char → Option (Nat × List Char))
    (hm : MonoCore core) (hnil : core [] = none)
    (hws : ∀ (c : Char) (l : List Char), isPySpace c = true → core (c :: l) = none)
    (h : '\n' ∉ s) : NoCore core (subScan core s) :=
  subScanF_noCore core hm hnil hws s.length s (Nat.le_refl _) h

lemma subScan_id {s : List Char} (core : List Char → Option (Nat × List Char))
    (h : NoCore core s) : subScan core s = s :=
  subScanF_id core s.length s h

/-! ## Behaviour of the bracket substitutions on newline-free strings -/

lemma g9scan_take : ∀ s : List Char, ∃ p, g9scan s = s.take p
  | [] => ⟨0, rfl⟩
  | c :: cs => by
    simp only [g9scan]
    split
    · exact ⟨0, rfl⟩
    · obtain ⟨p, hp⟩ := g9scan_take cs
      exact ⟨p + 1, by rw [hp, List.take_succ_cons]⟩

lemma bracketAny_eq_nil {s : List Char} (hd : s.drop (wsCount s) = []) :
    bracketAnyMatchAt s = none := by
  simp only [bracketAnyMatchAt, hd]

lemma bracketAny_eq_cons {s : List Char} {b : Char} {rest : List Char}
    (hd : s.drop (wsCount s) = b :: rest) :
    bracketAnyMatchAt s =
      (if (b == '[' || b == '(') = true then
        match lineTail rest with
        | [] => some []
        | nl :: after => if after.isEmpty = true then some [nl] else none
      else none) := by
  simp only [bracketAnyMatchAt, hd]

lemma bracketEnd_eq_nil {s : List Char} (hd : s.drop (wsCount s) = []) :
    bracketEndMatchAt s = false := by
  simp only [bracketEndMatchAt, hd]

lemma bracketEnd_eq_cons {s : List Char} {b : Char} {rest : List Char}
    (hd : s.drop (wsCount s) = b :: rest) :
    bracketEndMatchAt s =
      (if (b == '[' || b == '(') = true then
        match rest.drop (countWhile (fun ch => ch != ']' && ch != ')') rest) with
        | cl :: tail => (cl == ']' || cl == ')') && tail.all isPySpace
        | [] => false
      else false) := by
  simp only [bracketEndMatchAt, hd]

lemma bracketAny_noNL {s : List Char} (h : '\n' ∉ s) {lv : List Char}
    (hm : bracketAnyMatchAt s = some lv) : lv = [] := by
  cases hd : s.drop (wsCount s) with
  | nil => rw [bracketAny_eq_nil hd] at hm; cases hm
  | cons b rest =>
    rw [bracketAny_eq_cons hd] at hm
    by_cases hb : (b == '[' || b == '(') = true
    · rw [if_pos hb] at hm
      have hrest : '\n' ∉ rest := by
        intro hmem
        exact h (List.mem_of_mem_drop (hd ▸ List.mem_cons_of_mem b hmem))
      rw [lineTail_nil hrest] at hm
      cases hm
      rfl
    · rw [if_neg hb] at hm
      cases hm

lemma g10scan_take : ∀ s : List Char, '\n' ∉ s → ∃ p, g10scan s = s.take p
  | [], _ => ⟨0, rfl⟩
  | c :: cs, h => by
    simp only [g10scan]
    split
    · rename_i lv heq
      rw [bracketAny_noNL h heq]
      exact ⟨0, rfl⟩
    · obtain ⟨p, hp⟩ := g10scan_take cs (fun hmem => h (List.mem_cons_of_mem c hmem))
      exact ⟨p + 1, by rw [hp, List.take_succ_cons]⟩

lemma bracketAny_of_bracket {c : Char} (cs : List Char) (h : '\n' ∉ c :: cs)
    (hc : c = '[' ∨ c = '(') : bracketAnyMatchAt (c :: cs) = some [] := by
  have hcws : isPySpace c = false := by
    rcases hc with rfl | rfl <;> rfl
  have hw : wsCount (c :: cs) = 0 := by
    simp [wsCount, countWhile_cons, hcws]
  have hd : (c :: cs).drop (wsCount (c :: cs)) = c :: cs := by
    rw [hw, List.drop_zero]
  have hb : (c == '[' || c == '(') = true := by
    rcases hc with rfl | rfl <;> rfl
  have hcs : '\n' ∉ cs := fun hmem => h (List.mem_cons_of_mem c hmem)
  rw [bracketAny_eq_cons hd, if_pos hb, lineTail_nil hcs]

lemma g10scan_bracketFree : ∀ s : List Char, '\n' ∉ s →
    '[' ∉ g10scan s ∧ '(' ∉ g10scan s
  | [], _ => by simp [g10scan]
  | c :: cs, h => by
    have hcs : '\n' ∉ cs := fun hmem => h (List.mem_cons_of_mem c hmem)
    simp only [g10scan]
    split
    · rename_i lv heq
      rw [bracketAny_noNL h heq]
      simp
    · rename_i heq
      have hcb : ¬ (c = '[' ∨ c = '(') := by
        intro hc
        rw [bracketAny_of_bracket cs h hc] at heq
        cases heq
      have ih := g10scan_bracketFree cs hcs
      constructor
      · intro hmem
        rcases List.mem_cons.mp hmem with h1 | h1
        · exact hcb (Or.inl h1.symm)
        · exact ih.1 h1
      · intro hmem
        rcases List.mem_cons.mp hmem with h1 | h1
        · exact hcb (Or.inr h1.symm)
        · exact ih.2 h1

lemma bracketEnd_false {s : List Char} (h1 : '[' ∉ s) (h2 : '(' ∉ s) :
    bracketEndMatchAt s = false := by
  cases hd : s.drop (wsCount s) with
  | nil => exact bracketEnd_eq_nil hd
  | cons b rest =>
    rw [bracketEnd_eq_cons hd]
    have hb : b ∈ s := List.mem_of_mem_drop (hd ▸ List.mem_cons_self b rest)
    have hbne : (b == '[' || b == '(') = false := by
      simp only [Bool.or_eq_false_iff, beq_eq_false_iff_ne, ne_eq]
      exact ⟨fun he => h1 (he ▸ hb), fun he => h2 (he ▸ hb)⟩
    rw [if_neg (by simp [hbne])]

lemma g9scan_id : ∀ s : List Char, '[' ∉ s → '(' ∉ s → g9scan s = s
  | [], _, _ => rfl
  | c :: cs, h1, h2 => by
    simp only [g9scan, bracketEnd_false h1 h2]
    rw [g9scan_id cs (fun hm => h1 (List.mem_cons_of_mem c hm))
      (fun hm => h2 (List.mem_cons_of_mem c hm))]
    simp

lemma bracketAny_none {s : List Char} (h1 : '[' ∉ s) (h2 : '(' ∉ s) :
    bracketAnyMatchAt s = none := by
  cases hd : s.drop (wsCount s) with
  | nil => exact bracketAny_eq_nil hd
  | cons b rest =>
    rw [bracketAny_eq_cons hd]
    have hb : b ∈ s := List.mem_of_mem_drop (hd ▸ List.mem_cons_self b rest)
    have hbne : (b == '[' || b == '(') = false := by
      simp only [Bool.or_eq_false_iff, beq_eq_false_iff_ne, ne_eq]
      exact ⟨fun he => h1 (he ▸ hb), fun he => h2 (he ▸ hb)⟩
    rw [if_neg (by simp [hbne])]

lemma g10scan_id : ∀ s : List Char, '[' ∉ s → '(' ∉ s → g10scan s = s
  | [], _, _ => rfl
  | c :: cs, h1, h2 => by
    simp only [g10scan, bracketAny_none h1 h2]
    rw [g10scan_id cs (fun hm => h1 (List.mem_cons_of_mem c hm))
      (fun hm => h2 (List.mem_cons_of_mem c hm))]

lemma stripLead_reach : ∀ s : List Char, Reach s (stripLeadGroupList s)
  | [] => reach_refl []
  | c :: rest => by
    simp only [stripLeadGroupList]
    split
    · split
      · split
        · rename_i tail heq
          have h2 : rest.drop (countWhile (fun ch => ch != ']') rest + 1) =
              (rest.drop (countWhile (fun ch => ch != ']') rest)).drop 1 := by
            rw [List.drop_drop, Nat.add_comm]
          have htail : (c :: rest).drop (countWhile (fun ch => ch != ']') rest + 2) =
              tail := by
            calc (c :: rest).drop (countWhile (fun ch => ch != ']') rest + 2)
                = rest.drop (countWhile (fun ch => ch != ']') rest + 1) := rfl
              _ = (rest.drop (countWhile (fun ch => ch != ']') rest)).drop 1 := h2
              _ = tail := by rw [heq]; rfl
          rw [← htail]
          exact reach_drop _ _
        · exact reach_refl _
      · exact reach_refl _
    · split
      · split
        · split
          · rename_i tail heq
            have h2 : rest.drop (countWhile (fun ch => ch != ')') rest + 1) =
                (rest.drop (countWhile (fun ch => ch != ')') rest)).drop 1 := by
              rw [List.drop_drop, Nat.add_comm]
            have htail : (c :: rest).drop (countWhile (fun ch => ch != ')') rest + 2) =
                tail := by
              calc (c :: rest).drop (countWhile (fun ch => ch != ')') rest + 2)
                  = rest.drop (countWhile (fun ch => ch != ')') rest + 1) := rfl
                _ = (rest.drop (countWhile (fun ch => ch != ')') rest)).drop 1 := h2
                _ = tail := by rw [heq]; rfl
            rw [← htail]
            exact reach_drop _ _
          · exact reach_refl _
        · exact reach_refl _
      · exact reach_refl _

lemma stripLead_id {s : List Char} (h1 : '[' ∉ s) (h2 : '(' ∉ s) :
    stripLeadGroupList s = s := by
  cases s with
  | nil => rfl
  | cons c rest =>
    have hc1 : ¬ c = '[' := fun he => h1 (he ▸ List.mem_cons_self c rest)
    have hc2 : ¬ c = '(' := fun he => h2 (he ▸ List.mem_cons_self c rest)
    simp [stripLeadGroupList, hc1, hc2]

/-! ## Behaviour of strip -/

lemma reach_pyStrip (s : List Char) : Reach s (pyStrip s) := by
  have h1 : Reach s (s.dropWhile isPySpace) := reach_dropWhile isPySpace s
  have h2 : pyStrip s = (s.dropWhile isPySpace).take
      ((s.dropWhile isPySpace).length -
        countWhile isPySpace (s.dropWhile isPySpace).reverse) := by
    rw [pyStrip, dropWhile_eq_drop isPySpace (s.dropWhile isPySpace).reverse,
      List.drop_reverse, List.reverse_reverse]
  rw [h2]
  exact reach_trans h1 (reach_take _ _)

lemma dropWhile_head {p : Char → Bool} : ∀ {l : List Char} {c : Char},
    (l.dropWhile p).head? = some c → p c = false
  | [], c, h => by simp at h
  | d :: t, c, h => by
    rw [List.dropWhile_cons] at h
    split at h
    · exact dropWhile_head h
    · rename_i hpd
      simp only [List.head?_cons, Option.some.injEq] at h
      subst h
      exact Bool.not_eq_true _ ▸ (by simpa using hpd)

lemma dropWhile_id_of_head {l : List Char}
    (h : ∀ c, l.head? = some c → isPySpace c = false) :
    l.dropWhile isPySpace = l := by
  cases l with
  | nil => rfl
  | cons c t =>
    rw [List.dropWhile_cons, if_neg (by simp [h c rfl])]

lemma head?_take {l : List Char} {n : Nat} (h : 0 < n) : (l.take n).head? = l.head? := by
  cases l with
  | nil => simp
  | cons c t =>
    cases n with
    | zero => omega
    | succ m => simp

lemma pyStrip_head (s : List Char) :
    ∀ c, (pyStrip s).head? = some c → isPySpace c = false := by
  intro c hc
  have h2 : pyStrip s = (s.dropWhile isPySpace).take
      ((s.dropWhile isPySpace).length -
        countWhile isPySpace (s.dropWhile isPySpace).reverse) := by
    rw [pyStrip, dropWhile_eq_drop isPySpace (s.dropWhile isPySpace).reverse,
      List.drop_reverse, List.reverse_reverse]
  rw [h2] at hc
  rcases Nat.eq_zero_or_pos ((s.dropWhile isPySpace).length -
      countWhile isPySpace (s.dropWhile isPySpace).reverse) with h0 | h0
  · rw [h0] at hc
    simp at hc
  · rw [head?_take h0] at hc
    exact dropWhile_head hc

lemma pyStrip_last (s : List Char) :
    ∀ c, (pyStrip s).reverse.head? = some c → isPySpace c = false := by
  intro c hc
  rw [pyStrip, List.reverse_reverse] at hc
  exact dropWhile_head hc

lemma pyStrip_id {s : List Char}
    (hh : ∀ c, s.head? = some c → isPySpace c = false)
    (hl : ∀ c, s.reverse.head? = some c → isPySpace c = false) :
    pyStrip s = s := by
  rw [pyStrip, dropWhile_id_of_head hh, dropWhile_id_of_head hl, List.reverse_reverse]

lemma pyStrip_idem (s : List Char) : pyStrip (pyStrip s) = pyStrip s :=
  pyStrip_id (pyStrip_head s) (pyStrip_last s)

/-! ## Monotonicity of the cores under extension of a truncated list -/

lemma digitCount_take (u : List Char) (k : Nat) :
    digitCount (u.take k) = min (digitCount u) k := countWhile_take _ u k

lemma wsCount_take (u : List Char) (k : Nat) :
    wsCount (u.take k) = min (wsCount u) k := countWhile_take _ u k

lemma digit_pos_of_take {u : List Char} {k : Nat} (h : 0 < digitCount (u.take k)) :
    0 < digitCount u := by
  rw [digitCount_take] at h
  exact lt_of_lt_of_le h (min_le_left _ _)

lemma ws_pos_of_take {u : List Char} {k : Nat} (h : 0 < wsCount (u.take k)) :
    0 < wsCount u := by
  rw [wsCount_take] at h
  exact lt_of_lt_of_le h (min_le_left _ _)

lemma digit_head {l : List Char} (h : 0 < digitCount l) :
    ∃ c t, l = c :: t ∧ Char.isDigit c = true := by
  cases l with
  | nil => simp [digitCount, countWhile] at h
  | cons c t =>
    refine ⟨c, t, rfl, ?_⟩
    by_contra hc
    rw [digitCount, countWhile_cons, if_neg (by simpa using hc)] at h
    omega

lemma digitCount_cons_not {c : Char} {t : List Char} (h : Char.isDigit c = false) :
    digitCount (c :: t) = 0 := by
  simp [digitCount, countWhile_cons, h]

/-- After a greedy run inside a truncated list, a non-empty remainder means
the run ended at a genuine non-matching character, so the run has the same
length in the full list and the remainder's head carries over. -/
lemma run_drop_cons {p : Char → Bool} {u : List Char} {k : Nat} {c : Char} {t : List Char}
    (h : (u.take k).drop (countWhile p (u.take k)) = c :: t) :
    ∃ t', u.drop (countWhile p u) = c :: t' ∧
      t = t'.take (k - countWhile p u - 1) ∧
      countWhile p (u.take k) = countWhile p u ∧ countWhile p u < k := by
  have hlen : countWhile p (u.take k) < (u.take k).length := by
    have hlen2 := congrArg List.length h
    rw [List.length_drop] at hlen2
    simp only [List.length_cons] at hlen2
    omega
  have hlen3 : (u.take k).length ≤ k := by
    rw [List.length_take]
    exact min_le_left k _
  have hcu : countWhile p u < k := by
    rw [countWhile_take] at hlen
    by_contra hge
    rw [min_eq_right (by omega)] at hlen
    omega
  have heq : countWhile p (u.take k) = countWhile p u := by
    rw [countWhile_take]
    exact min_eq_left (le_of_lt hcu)
  rw [heq, List.drop_take] at h
  obtain ⟨t', ht', htt⟩ := take_cons_inv h
  exact ⟨t', ht', htt, heq, hcu⟩

/-- A case-insensitive literal match surviving after a greedy run inside a
truncated list carries over to the full list, with the run aligned. -/
lemma run_ciStarts {p : Char → Bool} {u : List Char} {k : Nat} {w : List Char}
    (hw : w ≠ [])
    (h : ciStarts w ((u.take k).drop (countWhile p (u.take k))) = true) :
    countWhile p (u.take k) = countWhile p u ∧
      ciStarts w (u.drop (countWhile p u)) = true := by
  cases hx : (u.take k).drop (countWhile p (u.take k)) with
  | nil =>
    rw [hx] at h
    cases w with
    | nil => exact absurd rfl hw
    | cons a w' => simp [ciStarts] at h
  | cons c t =>
    obtain ⟨t', hu, htt, heq, hlt⟩ := run_drop_cons hx
    refine ⟨heq, ?_⟩
    rw [hx] at h
    have hct : c :: t = (c :: t').take (k - countWhile p u) := by
      rw [show k - countWhile p u = (k - countWhile p u - 1) + 1 from by omega,
        List.take_succ_cons, ← htt]
    rw [hct] at h
    rw [hu]
    exact ciStarts_take h

lemma seasonStd_mono : MonoCore seasonStdCore := by
  intro u k h
  cases htk : u.take k with
  | nil => rw [htk] at h; simp [seasonStdCore] at h
  | cons c rest =>
    rw [htk] at h
    obtain ⟨u', rfl, hrest⟩ := take_cons_inv htk
    simp only [seasonStdCore] at h ⊢
    by_cases hs : lowc c = 's'
    case neg => rw [if_neg hs] at h; simp at h
    rw [if_pos hs] at h ⊢
    by_cases hd1 : 0 < digitCount u'
    · rw [if_pos hd1]; simp
    · rw [if_neg hd1]
      have hd0 : digitCount u' = 0 := by omega
      have hdr : ¬ 0 < digitCount rest := by
        rw [hrest, digitCount_take, hd0]
        simp
      rw [if_neg hdr] at h
      by_cases hci : ciStarts ['e', 'a', 's', 'o', 'n'] rest = true
      case neg => rw [if_neg hci] at h; simp at h
      rw [if_pos hci] at h
      have hciu : ciStarts ['e', 'a', 's', 'o', 'n'] u' = true := by
        rw [hrest] at hci
        exact ciStarts_take hci
      rw [if_pos hciu]
      have hr2 : rest.drop 5 = (u'.drop 5).take (k - 1 - 5) := by
        rw [hrest, List.drop_take]
      by_cases hd2 : 0 < digitCount (rest.drop 5)
      · have : 0 < digitCount (u'.drop 5) := by
          rw [hr2] at hd2
          exact digit_pos_of_take hd2
        rw [if_pos this]
        simp
      · rw [if_neg hd2] at h
        cases hm : rest.drop 5 with
        | nil => rw [hm] at h; simp at h
        | cons w r3 =>
          rw [hm] at h
          simp only [List.head?_cons, List.tail_cons, Option.elim] at h
          rw [hr2] at hm
          obtain ⟨v, hv, hr3⟩ := take_cons_inv hm
          by_cases hws : isPySpace w = true
          case neg => rw [if_neg hws] at h; simp at h
          rw [if_pos hws] at h
          by_cases hd3 : 0 < digitCount r3
          case neg => rw [if_neg hd3] at h; simp at h
          have hd3u : 0 < digitCount v := by
            rw [hr3] at hd3
            exact digit_pos_of_take hd3
          have hd2u : ¬ 0 < digitCount (u'.drop 5) := by
            rw [hv, digitCount_cons_not (isPySpace_not hws).1]
            omega
          rw [if_neg hd2u, hv]
          simp only [List.head?_cons, List.tail_cons, Option.elim]
          rw [if_pos hws, if_pos hd3u]
          simp

lemma run_drop_cons_ws {u : List Char} {k : Nat} {c : Char} {t : List Char}
    (h : (u.take k).drop (wsCount (u.take k)) = c :: t) :
    ∃ t', u.drop (wsCount u) = c :: t' ∧
      t = t'.take (k - wsCount u - 1) ∧
      wsCount (u.take k) = wsCount u ∧ wsCount u < k :=
  run_drop_cons h

lemma run_ciStarts_ws {u : List Char} {k : Nat} {w : List Char} (hw : w ≠ [])
    (h : ciStarts w ((u.take k).drop (wsCount (u.take k))) = true) :
    wsCount (u.take k) = wsCount u ∧ ciStarts w (u.drop (wsCount u)) = true :=
  run_ciStarts hw h

lemma run_ciStarts_digit {u : List Char} {k : Nat} {w : List Char} (hw : w ≠ [])
    (h : ciStarts w ((u.take k).drop (digitCount (u.take k))) = true) :
    digitCount (u.take k) = digitCount u ∧ ciStarts w (u.drop (digitCount u)) = true :=
  run_ciStarts hw h

lemma isSome_orElse {α : Type} (a : Option α) (f : Unit → Option α) :
    (a.orElse f).isSome = (a.isSome || (f ()).isSome) := by
  cases a <;> rfl

lemma head?_eq_cons {l : List Char} {c : Char} (h : l.head? = some c) :
    l = c :: l.tail := by
  cases l with
  | nil => simp at h
  | cons a t =>
    simp only [List.head?_cons, Option.some.injEq] at h
    rw [h]
    rfl

lemma ordNum_mono : MonoCore ordNumCore := by
  intro u k h
  simp only [ordNumCore] at h ⊢
  by_cases hd : 0 < digitCount (u.take k)
  case neg => rw [if_neg hd] at h; simp at h
  rw [if_pos hd] at h
  have hdu : 0 < digitCount u := digit_pos_of_take hd
  rw [if_pos hdu]
  by_cases hsuf : ordinalSuffixes.any
      (fun suf => ciStarts suf ((u.take k).drop (digitCount (u.take k)))) = true
  case neg => rw [if_neg hsuf] at h; simp at h
  rw [if_pos hsuf] at h
  obtain ⟨suf, hsm, hcis⟩ := List.any_eq_true.mp hsuf
  have hsufne : suf ≠ [] := by fin_cases hsm <;> simp
  obtain ⟨heq, hcisu⟩ := run_ciStarts_digit hsufne hcis
  have hanyu : ordinalSuffixes.any (fun suf => ciStarts suf (u.drop (digitCount u))) = true :=
    List.any_eq_true.mpr ⟨suf, hsm, hcisu⟩
  rw [if_pos hanyu]
  have hr1 : (u.take k).drop (digitCount (u.take k)) =
      (u.drop (digitCount u)).take (k - digitCount u) := by
    rw [heq, List.drop_take]
  have hr2 : ((u.take k).drop (digitCount (u.take k))).drop 2 =
      ((u.drop (digitCount u)).drop 2).take (k - digitCount u - 2) := by
    rw [hr1, List.drop_take]
  by_cases hw1 : 0 < wsCount (((u.take k).drop (digitCount (u.take k))).drop 2)
  case neg => rw [if_neg hw1] at h; simp at h
  rw [if_pos hw1] at h
  have hw1u : 0 < wsCount ((u.drop (digitCount u)).drop 2) := by
    rw [hr2] at hw1
    exact ws_pos_of_take hw1
  rw [if_pos hw1u]
  by_cases hsea : ciStarts ['s', 'e', 'a', 's', 'o', 'n']
      ((((u.take k).drop (digitCount (u.take k))).drop 2).drop
        (wsCount (((u.take k).drop (digitCount (u.take k))).drop 2))) = true
  case neg => rw [if_neg hsea] at h; simp at h
  rw [hr2] at hsea
  obtain ⟨-, hseau⟩ := run_ciStarts_ws (by simp) hsea
  rw [if_pos hseau]
  simp

lemma ciStarts_agree : ∀ (w1 w2 u : List Char), ciStarts w1 u = true →
    ciStarts w2 u = true → w1.length ≤ w2.length →
    listStarts (pyLower w1) (pyLower w2) = true
  | [], _, _, _, _, _ => rfl
  | a :: w1', w2, u, h1, h2, hlen => by
    cases u with
    | nil => simp [ciStarts] at h1
    | cons c u' =>
      cases w2 with
      | nil => simp at hlen
      | cons b w2' =>
        simp only [ciStarts, Bool.and_eq_true, beq_iff_eq] at h1 h2
        simp only [pyLower, List.map_cons, listStarts, Bool.and_eq_true, beq_iff_eq]
        exact ⟨h2.1.symm.trans h1.1, ciStarts_agree w1' w2' u' h1.2 h2.2 (by simpa using hlen)⟩

lemma word_unique {u w1 w2 : List Char} (h1m : w1 ∈ ordinalWords) (h2m : w2 ∈ ordinalWords)
    (h1 : ciStarts w1 u = true) (h2 : ciStarts w2 u = true) : w1 = w2 := by
  have hfact : ∀ a ∈ ordinalWords, ∀ b ∈ ordinalWords,
      listStarts (pyLower a) (pyLower b) = true → a = b := by decide
  rcases le_total w1.length w2.length with hl | hl
  · exact hfact w1 h1m w2 h2m (ciStarts_agree w1 w2 u h1 h2 hl)
  · exact (hfact w2 h2m w1 h1m (ciStarts_agree w2 w1 u h2 h1 hl)).symm

lemma find?_unique {p : List Char → Bool} :
    ∀ {l : List (List Char)} {w : List Char}, w ∈ l → p w = true →
      (∀ b ∈ l, p b = true → b = w) → l.find? p = some w
  | [], w, hw, _, _ => absurd hw (List.not_mem_nil w)
  | a :: l', w, hw, hp, hu => by
    by_cases hpa : p a = true
    · rw [List.find?_cons_of_pos _ hpa, hu a (List.mem_cons_self a l') hpa]
    · rw [List.find?_cons_of_neg _ (by simpa using hpa)]
      have hw' : w ∈ l' := by
        rcases List.mem_cons.mp hw with h1 | h1
        · exact absurd (h1 ▸ hp) hpa
        · exact h1
      exact find?_unique hw' hp (fun b hb hpb => hu b (List.mem_cons_of_mem a hb) hpb)

lemma ordWord_mono : MonoCore ordWordCore := by
  intro u k h
  simp only [ordWordCore] at h ⊢
  cases hf : ordinalWords.find? (fun w => ciStarts w (u.take k)) with
  | none => rw [hf] at h; simp [Option.elim] at h
  | some w =>
    rw [hf] at h
    simp only [Option.elim] at h
    have hwmem : w ∈ ordinalWords := List.mem_of_find?_eq_some hf
    have hwci : ciStarts w (u.take k) = true := by
      have := List.find?_some hf
      simpa using this
    have hwciu : ciStarts w u = true := ciStarts_take hwci
    have hfu : ordinalWords.find? (fun w' => ciStarts w' u) = some w :=
      find?_unique hwmem hwciu (fun b hb hpb => word_unique hb hwmem hpb hwciu)
    rw [hfu]
    simp only [Option.elim]
    have hr1 : (u.take k).drop w.length = (u.drop w.length).take (k - w.length) :=
      List.drop_take _ _ _
    by_cases hw1 : 0 < wsCount ((u.take k).drop w.length)
    case neg => rw [if_neg hw1] at h; simp at h
    rw [if_pos hw1] at h
    have hw1u : 0 < wsCount (u.drop w.length) := by
      rw [hr1] at hw1
      exact ws_pos_of_take hw1
    rw [if_pos hw1u]
    by_cases hsea : ciStarts ['s', 'e', 'a', 's', 'o', 'n']
        (((u.take k).drop w.length).drop (wsCount ((u.take k).drop w.length))) = true
    case neg => rw [if_neg hsea] at h; simp at h
    rw [hr1] at hsea
    obtain ⟨-, hseau⟩ := run_ciStarts_ws (by simp) hsea
    rw [if_pos hseau]
    simp

lemma wordNum_mono (word : List Char) : MonoCore (wordNumCore word) := by
  intro u k h
  simp only [wordNumCore] at h ⊢
  by_cases hci : ciStarts word (u.take k) = true
  case neg => rw [if_neg hci] at h; simp at h
  rw [if_pos hci] at h
  rw [if_pos (ciStarts_take hci)]
  have hr1 : (u.take k).drop word.length = (u.drop word.length).take (k - word.length) :=
    List.drop_take _ _ _
  by_cases hw1 : 0 < wsCount ((u.take k).drop word.length)
  case neg => rw [if_neg hw1] at h; simp at h
  rw [if_pos hw1] at h
  have hw1u : 0 < wsCount (u.drop word.length) := by
    rw [hr1] at hw1
    exact ws_pos_of_take hw1
  rw [if_pos hw1u]
  by_cases hd : 0 < digitCount
      (((u.take k).drop word.length).drop (wsCount ((u.take k).drop word.length)))
  case neg => rw [if_neg hd] at h; simp at h
  obtain ⟨c, t, hct, hdig⟩ := digit_head hd
  rw [hr1] at hct
  obtain ⟨t', hu', _, _, _⟩ := run_drop_cons_ws hct
  have hdu : 0 < digitCount ((u.drop word.length).drop (wsCount (u.drop word.length))) := by
    have hcnt : digitCount (c :: t') = digitCount t' + 1 := by
      rw [digitCount, countWhile_cons, if_pos hdig]
      rfl
    rw [hu', hcnt]
    omega
  rw [if_pos hdu]
  simp

lemma wsOptDigits_mono (base base2 : Nat) {X : List Char} {m : Nat}
    (h : (wsOptDigits base (X.take m)).isSome = true) :
    (wsOptDigits base2 X).isSome = true := by
  simp only [wsOptDigits] at h ⊢
  by_cases hd : 0 < digitCount (X.take m)
  · rw [if_pos (digit_pos_of_take hd)]
    simp
  · rw [if_neg hd] at h
    cases hx : (X.take m).head? with
    | none => rw [hx] at h; simp [Option.elim] at h
    | some w =>
      rw [hx] at h
      simp only [Option.elim] at h
      have hxt : X.take m = w :: (X.take m).tail := head?_eq_cons hx
      obtain ⟨X', hX', htail⟩ := take_cons_inv hxt
      by_cases hws : isPySpace w = true
      case neg => rw [if_neg hws] at h; simp at h
      rw [if_pos hws] at h
      by_cases hd2 : 0 < digitCount (X.take m).tail
      case neg => rw [if_neg hd2] at h; simp at h
      have hdX : ¬ 0 < digitCount X := by
        rw [hX', digitCount_cons_not (isPySpace_not hws).1]
        omega
      rw [if_neg hdX, hX']
      simp only [List.head?_cons, List.tail_cons, Option.elim]
      rw [if_pos hws]
      have hd2u : 0 < digitCount X' := by
        rw [htail] at hd2
        exact digit_pos_of_take hd2
      rw [if_pos hd2u]
      simp

lemma epCore_mono : MonoCore epCore := by
  intro u k h
  cases htk : u.take k with
  | nil => rw [htk] at h; simp [epCore] at h
  | cons c rest =>
    rw [htk] at h
    obtain ⟨u', rfl, hrest⟩ := take_cons_inv htk
    simp only [epCore] at h ⊢
    by_cases he : lowc c = 'e'
    case neg => rw [if_neg he] at h; simp at h
    rw [if_pos he] at h ⊢
    by_cases hd1 : 0 < digitCount u'
    · rw [if_pos hd1]
      simp
    · rw [if_neg hd1]
      have hdr : ¬ 0 < digitCount rest := by
        rw [hrest, digitCount_take]
        omega
      rw [if_neg hdr] at h
      rw [isSome_orElse] at h ⊢
      rw [Bool.or_eq_true] at h ⊢
      rcases h with halt | halt
      · -- the Ep branch matched in the truncated list
        refine Or.inl ?_
        by_cases hp : ciStarts ['p'] rest = true
        case neg => rw [if_neg hp] at halt; simp at halt
        rw [if_pos hp] at halt
        rw [if_pos (ciStarts_take (hrest ▸ hp))]
        have hr1 : rest.drop 1 = (u'.drop 1).take (k - 1 - 1) := by
          rw [hrest, List.drop_take]
        by_cases hdot : (rest.drop 1).head? = some '.'
        · rw [if_pos hdot] at halt
          have hcons : rest.drop 1 = '.' :: (rest.drop 1).tail := head?_eq_cons hdot
          rw [hr1] at hcons
          obtain ⟨V, hV, htv⟩ := take_cons_inv hcons
          have hdotu : (u'.drop 1).head? = some '.' := by
            rw [hV]
            rfl
          rw [if_pos hdotu, hV]
          simp only [List.tail_cons]
          rw [hr1, htv] at halt
          exact wsOptDigits_mono 3 3 halt
        · rw [if_neg hdot] at halt
          cases hr1h : rest.drop 1 with
          | nil =>
            rw [hr1h] at halt
            simp [wsOptDigits, digitCount, countWhile, Option.elim] at halt
          | cons d t =>
            have hdne : ¬ d = '.' := by
              intro hdd
              exact hdot (by rw [hr1h, hdd]; rfl)
            rw [hr1] at hr1h
            obtain ⟨V, hV, htv⟩ := take_cons_inv hr1h
            have hdotu : ¬ (u'.drop 1).head? = some '.' := by
              rw [hV]
              simp only [List.head?_cons, Option.some.injEq]
              exact hdne
            rw [if_neg hdotu]
            have halt2 : (wsOptDigits 2 ((u'.drop 1).take (k - 1 - 1))).isSome = true := by
              rw [← hr1]
              exact halt
            exact wsOptDigits_mono 2 2 halt2
      · -- the Episode branch matched in the truncated list
        refine Or.inr ?_
        by_cases hq : ciStarts ['p', 'i', 's', 'o', 'd', 'e'] rest = true
        case neg => rw [if_neg hq] at halt; simp at halt
        rw [if_pos hq] at halt
        rw [if_pos (ciStarts_take (hrest ▸ hq))]
        have hr6 : rest.drop 6 = (u'.drop 6).take (k - 1 - 6) := by
          rw [hrest, List.drop_take]
        rw [hr6] at halt
        exact wsOptDigits_mono 7 7 halt

lemma dashNum_mono : MonoCore dashNumCore := by
  intro u k h
  cases htk : u.take k with
  | nil => rw [htk] at h; simp [dashNumCore] at h
  | cons c rest =>
    rw [htk] at h
    obtain ⟨u', rfl, hrest⟩ := take_cons_inv htk
    simp only [dashNumCore] at h ⊢
    by_cases hc : c = '-'
    case neg => rw [if_neg hc] at h; simp at h
    rw [if_pos hc] at h ⊢
    by_cases hd : 0 < digitCount (rest.drop (wsCount rest))
    case neg => rw [if_neg hd] at h; simp at h
    obtain ⟨d, t, hct, hdig⟩ := digit_head hd
    rw [hrest] at hct
    obtain ⟨t', hu', _, _, _⟩ := run_drop_cons_ws hct
    have hdu : 0 < digitCount (u'.drop (wsCount u')) := by
      have hcnt : digitCount (d :: t') = digitCount t' + 1 := by
        rw [digitCount, countWhile_cons, if_pos hdig]
        rfl
      rw [hu', hcnt]
      omega
    rw [if_pos hdu]
    simp

lemma partCore_mono : MonoCore partCore :=
  fun u k h => wordNum_mono ['p', 'a', 'r', 't'] u k h

lemma courCore_mono : MonoCore courCore :=
  fun u k h => wordNum_mono ['c', 'o', 'u', 'r'] u k h

lemma noCore_of_coreFreeB {core : List Char → Option (Nat × List Char)} {s : List Char}
    (h : coreFreeB core s = true) : NoCore core s := by
  intro u v hv
  have hmem : v ∈ s.tails := by
    rw [List.mem_tails]
    exact ⟨u, hv.symm⟩
  have hall := List.all_eq_true.mp h v hmem
  simpa [Option.isNone_iff_eq_none] using hall

/-- On a newline-free input, the pipeline output carries no bracket, is
already stripped, and admits no head match of any of the seven monotone
cores at any suffix. -/
lemma nameList_good (s : List Char) (hnl : '\n' ∉ s) :
    '[' ∉ nameList s ∧ '(' ∉ nameList s ∧ pyStrip (nameList s) = nameList s ∧
    NoCore seasonStdCore (nameList s) ∧ NoCore ordNumCore (nameList s) ∧
    NoCore ordWordCore (nameList s) ∧ NoCore partCore (nameList s) ∧
    NoCore courCore (nameList s) ∧ NoCore epCore (nameList s) ∧
    NoCore dashNumCore (nameList s) := by
  set n0 := pyStrip (stripLeadGroupList s) with hn0
  set n1 := subScan seasonStdCore n0 with hn1
  set n2 := subScan ordNumCore n1 with hn2
  set n3 := subScan ordWordCore n2 with hn3
  set n4 := subScan romanCore n3 with hn4
  set n5 := subScan partCore n4 with hn5
  set n6 := subScan courCore n5 with hn6
  set n7 := subScan epCore n6 with hn7
  set n8 := subScan dashNumCore n7 with hn8
  set n9 := g9scan n8 with hn9
  set n10 := g10scan n9 with hn10
  have hrs : nameList s = pyStrip n10 := rfl
  have hnl0 : '\n' ∉ n0 := by
    rw [hn0]
    exact reach_noNL (reach_trans (stripLead_reach s) (reach_pyStrip _)) hnl
  have hre1 : Reach n0 n1 := by rw [hn1]; exact subScan_reach _ hnl0
  have hnl1 : '\n' ∉ n1 := reach_noNL hre1 hnl0
  have hre2 : Reach n1 n2 := by rw [hn2]; exact subScan_reach _ hnl1
  have hnl2 : '\n' ∉ n2 := reach_noNL hre2 hnl1
  have hre3 : Reach n2 n3 := by rw [hn3]; exact subScan_reach _ hnl2
  have hnl3 : '\n' ∉ n3 := reach_noNL hre3 hnl2
  have hre4 : Reach n3 n4 := by rw [hn4]; exact subScan_reach _ hnl3
  have hnl4 : '\n' ∉ n4 := reach_noNL hre4 hnl3
  have hre5 : Reach n4 n5 := by rw [hn5]; exact subScan_reach _ hnl4
  have hnl5 : '\n' ∉ n5 := reach_noNL hre5 hnl4
  have hre6 : Reach n5 n6 := by rw [hn6]; exact subScan_reach _ hnl5
  have hnl6 : '\n' ∉ n6 := reach_noNL hre6 hnl5
  have hre7 : Reach n6 n7 := by rw [hn7]; exact subScan_reach _ hnl6
  have hnl7 : '\n' ∉ n7 := reach_noNL hre7 hnl6
  have hre8 : Reach n7 n8 := by rw [hn8]; exact subScan_reach _ hnl7
  have hnl8 : '\n' ∉ n8 := reach_noNL hre8 hnl7
  have hre9 : Reach n8 n9 := by
    rw [hn9]
    obtain ⟨p, hp⟩ := g9scan_take n8
    rw [hp]
    exact reach_take _ _
  have hnl9 : '\n' ∉ n9 := reach_noNL hre9 hnl8
  have hre10 : Reach n9 n10 := by
    rw [hn10]
    obtain ⟨p, hp⟩ := g10scan_take n9 hnl9
    rw [hp]
    exact reach_take _ _
  have hrer : Reach n10 (pyStrip n10) := reach_pyStrip n10
  have hR8 : Reach n8 (pyStrip n10) := reach_trans hre9 (reach_trans hre10 hrer)
  have hR7 : Reach n7 (pyStrip n10) := reach_trans hre8 hR8
  have hR6 : Reach n6 (pyStrip n10) := reach_trans hre7 hR7
  have hR5 : Reach n5 (pyStrip n10) := reach_trans hre6 hR6
  have hR3 : Reach n3 (pyStrip n10) := reach_trans hre4 (reach_trans hre5 hR5)
  have hR2 : Reach n2 (pyStrip n10) := reach_trans hre3 hR3
  have hR1 : Reach n1 (pyStrip n10) := reach_trans hre2 hR2
  have hc1 : NoCore seasonStdCore n1 := by
    rw [hn1]
    exact subScan_noCore _ seasonStd_mono seasonStd_nil (fun c l hc => seasonStd_ws l hc) hnl0
  have hc2 : NoCore ordNumCore n2 := by
    rw [hn2]
    exact subScan_noCore _ ordNum_mono ordNum_nil (fun c l hc => ordNum_ws l hc) hnl1
  have hc3 : NoCore ordWordCore n3 := by
    rw [hn3]
    exact subScan_noCore _ ordWord_mono ordWord_nil (fun c l hc => ordWord_ws l hc) hnl2
  have hc5 : NoCore partCore n5 := by
    rw [hn5]
    exact subScan_noCore _ partCore_mono partCore_nil (fun c l hc => partCore_ws l hc) hnl4
  have hc6 : NoCore courCore n6 := by
    rw [hn6]
    exact subScan_noCore _ courCore_mono courCore_nil (fun c l hc => courCore_ws l hc) hnl5
  have hc7 : NoCore epCore n7 := by
    rw [hn7]
    exact subScan_noCore _ epCore_mono epCore_nil (fun c l hc => epCore_ws l hc) hnl6
  have hc8 : NoCore dashNumCore n8 := by
    rw [hn8]
    exact subScan_noCore _ dashNum_mono dashNum_nil (fun c l hc => dashNum_ws l hc) hnl7
  have hbr : '[' ∉ n10 ∧ '(' ∉ n10 := by
    rw [hn10]
    exact g10scan_bracketFree n9 hnl9
  rw [hrs]
  refine ⟨fun hm => hbr.1 (reach_mem hrer hm), fun hm => hbr.2 (reach_mem hrer hm),
    pyStrip_idem n10, noCore_reach seasonStd_mono hc1 hR1, noCore_reach ordNum_mono hc2 hR2,
    noCore_reach ordWord_mono hc3 hR3, noCore_reach partCore_mono hc5 hR5,
    noCore_reach courCore_mono hc6 hR6, noCore_reach epCore_mono hc7 hR7,
    noCore_reach dashNum_mono hc8 hR8⟩

/-- A string that is stripped, bracket-free, and free of every core at every
suffix passes through the whole pipeline unchanged. -/
lemma nameList_id (r : List Char)
    (hb1 : '[' ∉ r) (hb2 : '(' ∉ r) (hstrip : pyStrip r = r)
    (h1 : NoCore seasonStdCore r) (h2 : NoCore ordNumCore r) (h3 : NoCore ordWordCore r)
    (h4 : NoCore romanCore r) (h5 : NoCore partCore r) (h6 : NoCore courCore r)
    (h7 : NoCore epCore r) (h8 : NoCore dashNumCore r) :
    nameList r = r := by
  rw [nameList, stripLead_id hb1 hb2, hstrip, subScan_id _ h1, subScan_id _ h2,
    subScan_id _ h3, subScan_id _ h4, subScan_id _ h5, subScan_id _ h6,
    subScan_id _ h7, subScan_id _ h8, g9scan_id r hb1 hb2, g10scan_id r hb1 hb2, hstrip]

lemma data_mk (l : List Char) : (String.mk l).data = l := rfl

lemma extract_eq_nameList (t : String) :
    extract_anime_name t =
      if (nameList t.data).isEmpty then "Unknown" else String.mk (nameList t.data) := rfl

/-- C7 (amended): `extract_anime_name` is idempotent on every newline-free
title whose output contains no occurrence of the Roman-numeral season
pattern: a second application returns the same string.  The two hypotheses
are necessary: a truncation can create the trailing word boundary the
Roman-numeral pattern needs, and a newline can shield a bracket from the
bracket-stripping passes while the surrounding whitespace strip exposes a
new leading-bracket match. -/
theorem c7_idempotence_amended (title : String)
    (hnl : '\n' ∉ title.data)
    (hroman : coreFreeB romanCore (extract_anime_name title).data = true) :
    extract_anime_name (extract_anime_name title) = extract_anime_name title := by
  by_cases hre : (nameList title.data).isEmpty = true
  · rw [extract_eq_nameList title, if_pos hre]
    decide
  · obtain ⟨hb1, hb2, hstrip, g1, g2, g3, g5, g6, g7, g8⟩ := nameList_good title.data hnl
    rw [extract_eq_nameList title, if_neg hre, data_mk] at hroman
    have g4 : NoCore romanCore (nameList title.data) := noCore_of_coreFreeB hroman
    rw [extract_eq_nameList title, if_neg hre,
      extract_eq_nameList (String.mk (nameList title.data)), data_mk,
      nameList_id (nameList title.data) hb1 hb2 hstrip g1 g2 g3 g4 g5 g6 g7 g8,
      if_neg hre]

/-- Witness for C7 (amended) at a representative release title: the
hypotheses hold and a second pass leaves the extracted name unchanged. -/
theorem c7_idempotence_amended_witness :
    '\n' ∉ ("[SubsPlease] Anime - 01 (1080p)" : String).data ∧
    coreFreeB romanCore (extract_anime_name "[SubsPlease] Anime - 01 (1080p)").data = true ∧
    extract_anime_name (extract_anime_name "[SubsPlease] Anime - 01 (1080p)") =
      extract_anime_name "[SubsPlease] Anime - 01 (1080p)" :=
  ⟨by decide, by decide,
    c7_idempotence_amended "[SubsPlease] Anime - 01 (1080p)" (by decide) (by decide)⟩

/-- C7 counterexample: the claim fails as stated.  Removing `Ep 3` truncates
the title right after `Season II`, creating the end-of-string word boundary
the Roman-numeral pattern needs, so a second pass strips further; a newline
likewise defeats idempotence by shielding a bracket from the bracket passes
while the leading strip exposes a leading-bracket match on the second pass. -/
theorem c7_idempotence_counterexample :
    extract_anime_name "Anime Season IIEp 3" = "Anime Season II" ∧
    extract_anime_name "Anime Season II" = "Anime" ∧
    extract_anime_name (extract_anime_name "Anime Season IIEp 3") ≠
      extract_anime_name "Anime Season IIEp 3" ∧
    extract_anime_name (extract_anime_name " [A]X\nY") ≠
      extract_anime_name " [A]X\nY" :=
  ⟨by decide, by decide, by decide, by decide⟩

end AnimeScraper
